import Mathlib

/-!
Shallow embedding of the MemoryPool_v2 allocator (ThreadCache / CentralCache /
PageCache) and proofs about its size-class scheme, free-list maintenance,
page-run coalescing and error propagation.

Conventions of the embedding:
* byte addresses and sizes are `Nat`; the null pointer is address `0`;
* 64-bit `size_t` arithmetic is `Nat` arithmetic, with bit operations
  (`&&&`, `>>>`, `<<<`) taken literally (masking with `2 ^ 64 - a` reproduces
  the 64-bit truncating behaviour of `x & ~(a - 1)` exactly, because the mask
  discards all bits at positions 64 and above);
* `std::map` / `std::set` become association lists / lists sorted by key, and
  each map operation (`lower_bound`, `upper_bound` followed by `--it`,
  `erase`, `emplace`, `operator[]`) is a recursive function on that list;
* the intrusive singly linked free lists (next pointer stored in the first
  word of each free block) become `List Nat` of block addresses, and every
  pointer-surgery loop of the source is translated to a recursive function on
  that list;
* the OS is an oracle: a stream of `Option Nat` base addresses for `mmap`
  (`SystemAlloc`) and one for `malloc` (`AllocateUnit`); operations return the
  list of oracle answers they consumed, so that "no retry" is observable.
-/

namespace MemPool

/-- SizeUtil::ALIGNMENT = sizeof(void*) on the 64-bit target. -/
def ALIGNMENT : Nat := 8

/-- SizeUtil::PAGE_SIZE. -/
def PAGE_SIZE : Nat := 4096

/-- SizeUtil::MAX_UNIT_COUNT = PAGE_SIZE / ALIGNMENT. -/
def MAX_UNIT_COUNT : Nat := PAGE_SIZE / ALIGNMENT

/-- SizeUtil::MAX_CACHED_UNIT_SIZE = 1 << 15 = 32 KiB. -/
def MAX_CACHED_UNIT_SIZE : Nat := 2 ^ 15

/-- The 32-entry table SizeUtil::SIZE_CLASSES, copied verbatim. -/
def SIZE_CLASSES : List Nat :=
  [8, 16, 32, 64, 128,
   256, 384, 512,
   640, 768, 896, 1024,
   1280, 1536, 1792, 2048,
   2560, 3072, 3584, 4096,
   5120, 6144, 7168, 8192,
   10240, 12288, 14336, 16384,
   20480, 24576, 28672, 32768]

/-- SizeUtil::CACHE_LIST_SIZE = std::size(SIZE_CLASSES). -/
def CACHE_LIST_SIZE : Nat := SIZE_CLASSES.length

/-- Reading SIZE_CLASSES[i]; out-of-range reads (undefined behaviour in the
source) are given the harmless default 0. -/
def sizeClassAt (i : Nat) : Nat := SIZE_CLASSES.getD i 0

/-- SizeUtil::AlignSize: (rawSize + alignment - 1) & ~(alignment - 1) in
64-bit arithmetic.  For a power-of-two alignment, ~(alignment - 1) as a 64-bit
word is 2 ^ 64 - alignment, and `Nat.land` with that mask truncates any bits
at position 64 or above, exactly as the 64-bit wrap-around would. -/
def AlignSize (rawSize : Nat) (alignment : Nat := ALIGNMENT) : Nat :=
  (rawSize + alignment - 1) &&& (2 ^ 64 - alignment)

/-- SizeUtil::GetSizeClass, translated branch by branch. -/
def GetSizeClass (rawSize : Nat) : Nat :=
  if rawSize = 0 then sizeClassAt 0
  else if rawSize > MAX_CACHED_UNIT_SIZE then rawSize
  else if rawSize ≤ 128 then (rawSize + 7) &&& (2 ^ 64 - 8)
  else if rawSize ≤ 1024 then ((rawSize + 127) >>> 7) <<< 7
  else if rawSize ≤ 8192 then ((rawSize + 511) >>> 9) <<< 9
  else ((rawSize + 2047) >>> 11) <<< 11

/-- SizeUtil::GetIndex, translated branch by branch.  The final branch models
the release-mode behaviour after `assert(false)`: return CACHE_LIST_SIZE - 1. -/
def GetIndex (rawSize : Nat) : Nat :=
  if rawSize = 0 then 0
  else
    let sizeClass := GetSizeClass rawSize
    if sizeClass ≤ 128 then (sizeClass >>> 3) - 1
    else if sizeClass ≤ 512 then 4 + ((sizeClass - 128) >>> 7)
    else if sizeClass ≤ 1024 then 7 + ((sizeClass - 512) >>> 7)
    else if sizeClass ≤ 2048 then 11 + ((sizeClass - 1024) >>> 8)
    else if sizeClass ≤ 4096 then 15 + ((sizeClass - 2048) >>> 9)
    else if sizeClass ≤ 8192 then 19 + ((sizeClass - 4096) >>> 10)
    else if sizeClass ≤ 16384 then 23 + ((sizeClass - 8192) >>> 11)
    else if sizeClass ≤ 32768 then 27 + ((sizeClass - 16384) >>> 12)
    else CACHE_LIST_SIZE - 1

/-- The smallest entry of SIZE_CLASSES that is at least n, written from the
spec's words ("the smallest table entry ≥ n") for comparison with the code. -/
def smallestTableEntryGE (n : Nat) : Option Nat :=
  (SIZE_CLASSES.filter fun c => decide (n ≤ c)).head?

/-- MemorySpan: a base address and a byte length. -/
structure MemSpan where
  data : Nat
  size : Nat
deriving DecidableEq, Repr

/-- MemorySpan::SubSpan(offset, size). -/
def MemSpan.sub2 (s : MemSpan) (offset size : Nat) : MemSpan :=
  ⟨s.data + offset, size⟩

/-- MemorySpan::SubSpan(offset): the tail from offset on (size_t subtraction,
which never underflows at the call sites we reason about). -/
def MemSpan.sub1 (s : MemSpan) (offset : Nat) : MemSpan :=
  ⟨s.data + offset, s.size - offset⟩

/-- std::map::emplace on a sorted association list: insert only when the key
is absent. -/
def alistEmplace {α : Type} (k : Nat) (v : α) : List (Nat × α) → List (Nat × α)
  | [] => [(k, v)]
  | (k', v') :: rest =>
    if k < k' then (k, v) :: (k', v') :: rest
    else if k = k' then (k', v') :: rest
    else (k', v') :: alistEmplace k v rest

/-- std::map::erase by key on a sorted association list. -/
def alistErase {α : Type} (k : Nat) : List (Nat × α) → List (Nat × α)
  | [] => []
  | (k', v') :: rest => if k = k' then rest else (k', v') :: alistErase k rest

/-- std::map::find on an association list. -/
def alistFind {α : Type} (k : Nat) : List (Nat × α) → Option α
  | [] => none
  | (k', v') :: rest => if k = k' then some v' else alistFind k rest

/-- Replace the value stored at an existing key. -/
def alistUpdate {α : Type} (k : Nat) (v : α) : List (Nat × α) → List (Nat × α)
  | [] => []
  | (k', v') :: rest => if k = k' then (k', v) :: rest else (k', v') :: alistUpdate k v rest

/-- The greatest entry whose key is ≤ x on a sorted association list: this is
what `upper_bound(x)` followed by `--it` yields on a std::map (none when the
iterator would be `begin`). -/
def alistPredLE {α : Type} (x : Nat) : List (Nat × α) → Option (Nat × α)
  | [] => none
  | (k, v) :: rest => if k ≤ x then some ((alistPredLE x rest).getD (k, v)) else none

/-- The suffix of a sorted association list starting at `lower_bound(k)` (the
first entry with key ≥ k). -/
def alistLowerB {α : Type} (k : Nat) : List (Nat × α) → List (Nat × α)
  | [] => []
  | (k', v') :: rest => if k' < k then alistLowerB k rest else (k', v') :: rest

/-- std::set<MemorySpan>::emplace: the set is ordered by the span's data
pointer alone (operator<=> compares data_), so a span whose base address is
already present is not inserted. -/
def spanSetInsert (sp : MemSpan) : List MemSpan → List MemSpan
  | [] => [sp]
  | s :: rest =>
    if sp.data < s.data then sp :: s :: rest
    else if sp.data = s.data then s :: rest
    else s :: spanSetInsert sp rest

/-- std::set<MemorySpan>::erase(value): removes the element with the same
base address (set equivalence uses only data_). -/
def spanSetErase (sp : MemSpan) : List MemSpan → List MemSpan
  | [] => []
  | s :: rest => if s.data = sp.data then rest else s :: spanSetErase sp rest

/-- freePageStore_[k] (which default-constructs an empty set when the key is
absent) followed by applying `f` to that set. -/
def storeApply (k : Nat) (f : List MemSpan → List MemSpan) :
    List (Nat × List MemSpan) → List (Nat × List MemSpan)
  | [] => [(k, f [])]
  | (k', s) :: rest =>
    if k < k' then (k, f []) :: (k', s) :: rest
    else if k = k' then (k', f s) :: rest
    else (k', s) :: storeApply k f rest

/-- PageCache::PAGE_ALLOCATE_COUNT. -/
def PAGE_ALLOCATE_COUNT : Nat := 2048

/-- The OS, as two oracles: a stream of mmap results (consumed by SystemAlloc)
and a stream of malloc results (consumed by AllocateUnit), each with a call
counter. `none` means the primitive refused to provide memory. -/
structure Sys where
  mmapAddr : Nat → Option Nat
  mmapCalls : Nat
  heapAddr : Nat → Option Nat
  heapCalls : Nat

/-- PageCache state: freePageStore_ (page count → set of spans),
freePageMap_ (base address → span), pageVector_ (OS allocations recorded for
teardown). -/
structure PageCacheState where
  freePageStore : List (Nat × List MemSpan)
  freePageMap : List (Nat × MemSpan)
  pageVector : List MemSpan
deriving DecidableEq, Repr

/-- PageCache::SystemAlloc: one mmap call for pageCount pages; a null result
becomes `none`, otherwise the span covers PAGE_SIZE * pageCount bytes.
Returns the oracle answer it consumed as its syscall log. -/
def SystemAlloc (pageCount : Nat) (sys : Sys) :
    Option MemSpan × Sys × List (Option Nat) :=
  let r := sys.mmapAddr sys.mmapCalls
  (r.map fun a => ⟨a, PAGE_SIZE * pageCount⟩,
   { sys with mmapCalls := sys.mmapCalls + 1 }, [r])

/-- PageCache::AllocateUnit: one malloc call for `size` bytes (the large-block
path). -/
def AllocateUnit (size : Nat) (sys : Sys) :
    Option MemSpan × Sys × List (Option Nat) :=
  let r := sys.heapAddr sys.heapCalls
  (r.map fun a => ⟨a, size⟩,
   { sys with heapCalls := sys.heapCalls + 1 }, [r])

/-- The search loop of PageCache::AllocatePage: from `lower_bound(pageCount)`
onwards, skip entries whose sets are empty; MAX_SEARCH_ITERATIONS = 1000
bounds the number of loop iterations (the successful one included). -/
def searchStore (fuel : Nat) : List (Nat × List MemSpan) → Option (Nat × MemSpan)
  | [] => none
  | (k, s) :: rest =>
    match fuel with
    | 0 => none
    | f + 1 =>
      match s with
      | [] => searchStore f rest
      | sp :: _ => some (k, sp)

/-- PageCache::AllocatePage, translated line by line. -/
def AllocatePage (pageCount : Nat) (st : PageCacheState) (sys : Sys) :
    Option MemSpan × PageCacheState × Sys × List (Option Nat) :=
  if pageCount = 0 then (none, st, sys, [])
  else
  match searchStore 1000 (alistLowerB pageCount st.freePageStore) with
  | some (k, freeSpan) =>
    let store1 := storeApply k (spanSetErase freeSpan) st.freePageStore
    let map1 := alistErase freeSpan.data st.freePageMap
    let sizeToUse := pageCount * PAGE_SIZE
    let memoryToUse := freeSpan.sub2 0 sizeToUse
    let freeRest := freeSpan.sub1 sizeToUse
    if freeRest.size ≠ 0 then
      (some memoryToUse,
       ⟨storeApply (freeRest.size / PAGE_SIZE) (spanSetInsert freeRest) store1,
        alistEmplace freeRest.data freeRest map1, st.pageVector⟩, sys, [])
    else
      (some memoryToUse, ⟨store1, map1, st.pageVector⟩, sys, [])
  | none =>
    let pageToAllocate := max PAGE_ALLOCATE_COUNT pageCount
    match SystemAlloc pageToAllocate sys with
    | (none, sys', log) => (none, st, sys', log)
    | (some memory, sys', log) =>
      let memoryToUse := memory.sub2 0 (pageCount * PAGE_SIZE)
      let freeRest := memory.sub1 (pageCount * PAGE_SIZE)
      if freeRest.size ≠ 0 then
        (some memoryToUse,
         ⟨storeApply (freeRest.size / PAGE_SIZE) (spanSetInsert freeRest) st.freePageStore,
          alistEmplace freeRest.data freeRest st.freePageMap,
          st.pageVector ++ [memory]⟩, sys', log)
      else
        (some memoryToUse,
         ⟨st.freePageStore, st.freePageMap, st.pageVector ++ [memory]⟩, sys', log)

/-- Left-merge loop of PageCache::DeallocatePage: repeatedly look up the
predecessor of the page's base address and absorb it while it ends exactly at
the page's start; MAX_MERGE_ITERATIONS = 100 bounds the number of merges. -/
def mergeLeft (fuel : Nat) (page : MemSpan) (store : List (Nat × List MemSpan))
    (map : List (Nat × MemSpan)) :
    MemSpan × List (Nat × List MemSpan) × List (Nat × MemSpan) :=
  match fuel with
  | 0 => (page, store, map)
  | f + 1 =>
    match map with
    | [] => (page, store, map)
    | _ :: _ =>
      match alistPredLE page.data map with
      | none => (page, store, map)
      | some (k, prevSpan) =>
        if prevSpan.data + prevSpan.size = page.data then
          mergeLeft f ⟨prevSpan.data, prevSpan.size + page.size⟩
            (storeApply (prevSpan.size / PAGE_SIZE) (spanSetErase prevSpan) store)
            (alistErase k map)
        else (page, store, map)

/-- Right-merge loop of PageCache::DeallocatePage: absorb the span indexed at
the page's end address while one exists. -/
def mergeRight (fuel : Nat) (page : MemSpan) (store : List (Nat × List MemSpan))
    (map : List (Nat × MemSpan)) :
    MemSpan × List (Nat × List MemSpan) × List (Nat × MemSpan) :=
  match fuel with
  | 0 => (page, store, map)
  | f + 1 =>
    match map with
    | [] => (page, store, map)
    | _ :: _ =>
      match alistFind (page.data + page.size) map with
      | some nextSpan =>
        mergeRight f ⟨page.data, page.size + nextSpan.size⟩
          (storeApply (nextSpan.size / PAGE_SIZE) (spanSetErase nextSpan) store)
          (alistErase (page.data + page.size) map)
      | none => (page, store, map)

/-- PageCache::DeallocatePage: merge left, merge right, then insert the
(possibly enlarged) run into both indices. -/
def DeallocatePage (page : MemSpan) (st : PageCacheState) : PageCacheState :=
  let r1 := mergeLeft 100 page st.freePageStore st.freePageMap
  let r2 := mergeRight 100 r1.1 r1.2.1 r1.2.2
  let index := r2.1.size / PAGE_SIZE
  ⟨storeApply index (spanSetInsert r2.1) r2.2.1,
   alistEmplace r2.1.data r2.1 r2.2.2, st.pageVector⟩

/-- Well-formedness of freePageMap_: every entry is keyed by its span's base
address and stores a non-empty span. -/
def MapWF (map : List (Nat × MemSpan)) : Prop :=
  ∀ p ∈ map, p.1 = p.2.data ∧ 0 < p.2.size

/-- The coalescing invariant on freePageMap_: in key order, each stored run
ends strictly before the next one starts (no overlap and no touching). -/
def Gapped (map : List (Nat × MemSpan)) : Prop :=
  map.Pairwise fun p q => p.1 + p.2.size < q.1

/-- The run being returned neither overlaps any stored run (touching is
allowed; it is what coalescing consumes). -/
def DisjointFrom (page : MemSpan) (map : List (Nat × MemSpan)) : Prop :=
  ∀ p ∈ map, p.2.data + p.2.size ≤ page.data ∨ page.data + page.size ≤ p.2.data

/-- ThreadCache::MAX_FREE_BYTES_PER_LIST = 1 << 21 (2 MiB). -/
def MAX_FREE_BYTES_PER_LIST : Nat := 2 ^ 21

/-- A span record (PageSpan): the managed run (base address and byte length),
the size class it is sliced into (unitSize_), and the count of blocks handed
out (allocatedUnitCount_, the spec's in_use_count). -/
structure PageSpanRec where
  data : Nat
  size : Nat
  unitSize : Nat
  inUse : Nat
deriving DecidableEq, Repr

/-- PageSpan::IsInCharge, translated from PageSpan.cpp: the block has exactly
the unit size, starts at or after the run, at a unit-aligned offset, and ends
within the run. -/
def PageSpanRec.IsInCharge (r : PageSpanRec) (mem : MemSpan) : Prop :=
  mem.size = r.unitSize ∧ r.data ≤ mem.data ∧
  (mem.data - r.data) % r.unitSize = 0 ∧ (mem.data - r.data) + r.unitSize ≤ r.size

/-- PageSpan::Allocate: one more block of this run is handed out. -/
def PageSpanRec.alloc (r : PageSpanRec) : PageSpanRec :=
  { r with inUse := r.inUse + 1 }

/-- Modelled from the spec: PageSpan::CanBeRecycled is declared in the current
PageSpan.h, which is not among the provided sources (only older revisions with
`empty()` are).  The spec says "The run is recyclable when in_use_count
reaches zero", so the predicate is in_use_count == 0. -/
def PageSpanRec.CanBeRecycled (r : PageSpanRec) : Bool :=
  r.inUse == 0

/-- Per-size-class CentralCache state: freeLists_[i], freeListSizes_[i],
pageMaps_[i] and nextAllocateMemoryGroupCount_[i]. -/
structure CClass where
  freeList : List Nat
  freeListSize : Nat
  pageMap : List (Nat × PageSpanRec)
  nextGroupCount : Nat
deriving DecidableEq, Repr

/-- The CentralCache arrays, indexed by size-class position. -/
def CentralState : Type := Nat → CClass

/-- Writing one slot of the CentralCache arrays. -/
def updC (i : Nat) (c : CClass) (cs : CentralState) : CentralState :=
  fun j => if j = i then c else cs j

/-- CentralCache::RecordAllocatedMemorySpan: find the span record owning the
block (ordered-map predecessor) and count one more block as handed out.  When
no predecessor exists the source's assert(it != begin) fails; the model
leaves the map unchanged in that (unreachable) situation. -/
def RecordAllocatedMemorySpan (b : Nat) (pm : List (Nat × PageSpanRec)) :
    List (Nat × PageSpanRec) :=
  match alistPredLE b pm with
  | some (k, r) => alistUpdate k r.alloc pm
  | none => pm

/-- The fast-path loop of CentralCache::Allocate: pop blockCount blocks off
the class free list, recording each one against its span record, and link
them into the result chain (most recently popped first). -/
def popLoop (k : Nat) (c : CClass) (result : List Nat) : List Nat × CClass :=
  match k with
  | 0 => (result, c)
  | k' + 1 =>
    match c.freeList with
    | [] => (result, c)
    | b :: rest =>
      popLoop k'
        ⟨rest, c.freeListSize - 1, RecordAllocatedMemorySpan b c.pageMap, c.nextGroupCount⟩
        (b :: result)

/-- CentralCache::GetAllocatedPageCount: return the current group count
(floor 1), advance the counter by one, and convert groups to pages. -/
def GetAllocatedPageCount (c : CClass) : Nat × CClass :=
  let result := max c.nextGroupCount 1
  (AlignSize (result * MAX_FREE_BYTES_PER_LIST) PAGE_SIZE / PAGE_SIZE,
   { c with nextGroupCount := result + 1 })

/-- The slow-path splitting loop of CentralCache::Allocate: carve n blocks of
unitSize bytes starting at pos, prepending each to the accumulator and
counting each against the fresh span record. -/
def splitAllocLoop (n : Nat) (pos unitSize : Nat) (acc : List Nat)
    (r : PageSpanRec) : List Nat × Nat × PageSpanRec :=
  match n with
  | 0 => (acc, pos, r)
  | n' + 1 => splitAllocLoop n' (pos + unitSize) unitSize (pos :: acc) r.alloc

/-- The remainder loop of CentralCache::Allocate: prepend the leftover blocks
onto the class free list, bumping its length. -/
def restLoop (n : Nat) (pos unitSize : Nat) (fl : List Nat) (len : Nat) :
    List Nat × Nat :=
  match n with
  | 0 => (fl, len)
  | n' + 1 => restLoop n' (pos + unitSize) unitSize (pos :: fl) (len + 1)

/-- CentralCache::Allocate, translated branch by branch.  The returned chain
is the list of block addresses handed to the caller (head first). -/
def CentralAllocate (memorySize blockCount : Nat) (cs : CentralState)
    (pst : PageCacheState) (sys : Sys) :
    Option (List Nat) × CentralState × PageCacheState × Sys × List (Option Nat) :=
  if memorySize = 0 ∨ blockCount = 0 then (none, cs, pst, sys, [])
  else if MAX_CACHED_UNIT_SIZE < memorySize then
    match AllocateUnit memorySize sys with
    | (none, sys', log) => (none, cs, pst, sys', log)
    | (some sp, sys', log) => (some [sp.data], cs, pst, sys', log)
  else
    let index := GetIndex memorySize
    let c := cs index
    if c.freeListSize < blockCount then
      let gp := GetAllocatedPageCount c
      match AllocatePage gp.1 pst sys with
      | (none, pst', sys', log) => (none, updC index gp.2 cs, pst', sys', log)
      | (some memory, pst', sys', log) =>
        let rec0 : PageSpanRec := ⟨memory.data, memory.size, memorySize, 0⟩
        let allocatedSpanCount := memory.size / memorySize
        let sp := splitAllocLoop blockCount memory.data memorySize [] rec0
        let pm' := alistEmplace memory.data sp.2.2 gp.2.pageMap
        let rest := restLoop (allocatedSpanCount - blockCount) sp.2.1 memorySize
          gp.2.freeList gp.2.freeListSize
        (some sp.1,
         updC index ⟨rest.1, rest.2, pm', gp.2.nextGroupCount⟩ cs, pst', sys', log)
    else
      let pr := popLoop blockCount c []
      (some pr.1, updC index pr.2 cs, pst, sys, [])

/-- The purge walk of CentralCache::Deallocate: one linear pass over the
class free list removing every block that lies inside
[pageStart, pageEnd); returns the surviving list and the number removed. -/
def purgeWalk (l : List Nat) (pageStart pageEnd memorySize : Nat) : List Nat × Nat :=
  match l with
  | [] => ([], 0)
  | b :: rest =>
    let r := purgeWalk rest pageStart pageEnd memorySize
    if pageStart ≤ b ∧ b + memorySize ≤ pageEnd then (r.1, r.2 + 1)
    else (b :: r.1, r.2)

/-- The per-block loop of CentralCache::Deallocate: push the block onto the
class free list, locate its span record (map predecessor), and if that record
can be recycled, purge all blocks of the run from the free list, drop the record,
halve nextAllocateMemoryGroupCount_ (floor 1) and return the run to
PageCache::DeallocatePage. -/
def deallocLoop (chain : List Nat) (memorySize : Nat) (c : CClass)
    (pst : PageCacheState) : CClass × PageCacheState :=
  match chain with
  | [] => (c, pst)
  | b :: rest =>
    let c1 : CClass :=
      ⟨b :: c.freeList, c.freeListSize + 1, c.pageMap, c.nextGroupCount⟩
    match alistPredLE b c1.pageMap with
    | none => deallocLoop rest memorySize c1 pst
    | some (k, r) =>
      if r.CanBeRecycled then
        let pw := purgeWalk c1.freeList r.data (r.data + r.size) memorySize
        let c2 : CClass :=
          ⟨pw.1, c1.freeListSize - pw.2, alistErase k c1.pageMap,
           max (c1.nextGroupCount / 2) 1⟩
        deallocLoop rest memorySize c2 (DeallocatePage ⟨r.data, r.size⟩ pst)
      else deallocLoop rest memorySize c1 pst

/-- CentralCache::Deallocate: sizes above the cacheable threshold go straight
to PageCache::DeallocateUnit (the system heap's free, which changes no
allocator state); cached sizes run the per-block loop on their class. -/
def CentralDeallocate (memoryList : List Nat) (memorySize : Nat)
    (cs : CentralState) (pst : PageCacheState) : CentralState × PageCacheState :=
  if MAX_CACHED_UNIT_SIZE < memorySize then (cs, pst)
  else
    let index := GetIndex memorySize
    let r := deallocLoop memoryList memorySize (cs index) pst
    (updC index r.1 cs, r.2)

/-- A fresh CentralCache class slot. -/
def cClass0 : CClass := ⟨[], 0, [], 0⟩

/-- A CentralCache whose every class is untouched. -/
def centralState0 : CentralState := fun _ => cClass0

/-- An empty PageCache. -/
def pageCacheState0 : PageCacheState := ⟨[], [], []⟩

/-- An OS that grants every mmap request at page-aligned address 4096 and
receives no malloc traffic. -/
def sysAlways : Sys := ⟨fun _ => some 4096, 0, fun _ => none, 0⟩

/-- Fresh caches, then CentralCache::Allocate(32768, 16): sixteen 32 KiB
blocks are carved out of a newly fetched 2 MiB run. -/
def c3Alloc := CentralAllocate 32768 16 centralState0 pageCacheState0 sysAlways

/-- CentralCache::Deallocate of the full 16-block chain just allocated. -/
def c3Freed := CentralDeallocate (c3Alloc.1.getD []) 32768 c3Alloc.2.1 c3Alloc.2.2.1

/-- Per-size-class ThreadCache state: freeList_[i], freeListSize_[i] and
nextAllocateCount_[i]. -/
structure TClass where
  freeList : List Nat
  freeListSize : Nat
  nextAllocateCount : Nat
deriving DecidableEq, Repr

/-- The ThreadCache arrays, indexed by size-class position. -/
def ThreadState : Type := Nat → TClass

/-- Writing one slot of the ThreadCache arrays. -/
def updT (i : Nat) (t : TClass) (ts : ThreadState) : ThreadState :=
  fun j => if j = i then t else ts j

/-- ThreadCache::ComputeAllocateCount: return max(nextAllocateCount_, 16) and
store for next time its double, capped by the class ceiling (256 / 128 / 64),
by MAX_FREE_BYTES_PER_LIST / size / 2, and by MAX_UNIT_COUNT. -/
def ComputeAllocateCount (size : Nat) (ts : ThreadState) : Nat × ThreadState :=
  let index := GetIndex size
  if CACHE_LIST_SIZE ≤ index then (1, ts)
  else
    let t := ts index
    let minBlocks := 16
    let result := max t.nextAllocateCount minBlocks
    let nextCount := result * 2
    let maxBlocks := if size ≤ 128 then 256 else if size ≤ 1024 then 128 else 64
    let n1 := min nextCount maxBlocks
    let n2 := min n1 (MAX_FREE_BYTES_PER_LIST / size / 2)
    let n3 := min n2 MAX_UNIT_COUNT
    (result, updT index ⟨t.freeList, t.freeListSize, n3⟩ ts)

/-- The tail-finding splice of ThreadCache::FetchFromCentralCache: walk the
returned chain to its last node (stopping after blockCount nodes or at a null
next pointer), null-terminate it, hang the old free list off its tail and
make the chain's second node the new head.  On the list model the resulting
free list is the chain's tail (at most blockCount - 1 nodes; any nodes beyond
blockCount are unlinked and leak, as in the source) followed by the old
list. -/
def spliceFetched (chain : List Nat) (blockCount : Nat) (old : List Nat) : List Nat :=
  match chain with
  | [] => old
  | _ :: rest => rest.take (blockCount - 1) ++ old

/-- The whole-allocator state threaded through an allocation: the calling
thread's cache, the central cache, the page cache, the OS oracle, plus the
returned address and the log of OS answers consumed along the way. -/
structure AllocResult where
  res : Option Nat
  ts : ThreadState
  cs : CentralState
  pst : PageCacheState
  sys : Sys
  log : List (Option Nat)

/-- ThreadCache::FetchFromCentralCache: ask CentralCache for a batch of
ComputeAllocateCount blocks, keep the head as the answer and splice the rest
onto the class free list (length grows by blockCount - 1). -/
def FetchFromCentralCache (memorySize : Nat) (ts : ThreadState)
    (cs : CentralState) (pst : PageCacheState) (sys : Sys) : AllocResult :=
  let bc := ComputeAllocateCount memorySize ts
  let r := CentralAllocate memorySize bc.1 cs pst sys
  match r.1 with
  | none => ⟨none, bc.2, r.2.1, r.2.2.1, r.2.2.2.1, r.2.2.2.2⟩
  | some chain =>
    let index := GetIndex memorySize
    let t := bc.2 index
    ⟨chain.head?,
     updT index
       ⟨spliceFetched chain bc.1 t.freeList, t.freeListSize + (bc.1 - 1),
        t.nextAllocateCount⟩ bc.2,
     r.2.1, r.2.2.1, r.2.2.2.1, r.2.2.2.2⟩

/-- ThreadCache::Allocate: zero size yields none; the size is rounded to its
class; above the threshold it goes through FetchFromCentralCache to the
large-block path; otherwise the class free list serves a block if it has one
and is refilled from CentralCache if not. -/
def ThreadAllocate (memorySize : Nat) (ts : ThreadState) (cs : CentralState)
    (pst : PageCacheState) (sys : Sys) : AllocResult :=
  if memorySize = 0 then ⟨none, ts, cs, pst, sys, []⟩
  else
    let size := GetSizeClass memorySize
    if MAX_CACHED_UNIT_SIZE < size then FetchFromCentralCache size ts cs pst sys
    else
      let index := GetIndex size
      match (ts index).freeList with
      | b :: rest =>
        ⟨some b,
         updT index ⟨rest, (ts index).freeListSize - 1, (ts index).nextAllocateCount⟩ ts,
         cs, pst, sys, []⟩
      | [] => FetchFromCentralCache size ts cs pst sys

/-- The flush walk of ThreadCache::Deallocate: starting at the list head,
take `hops` steps checking at each step that a next node exists; sever the
chunk visited (hops + 1 nodes) from the remainder.  `none` is the defensive
abort taken when the list runs out early ("Free list is shorter than
expected"). -/
def severWalk (l : List Nat) (hops : Nat) : Option (List Nat × List Nat) :=
  match hops, l with
  | _, [] => none
  | 0, b :: rest => some ([b], rest)
  | h + 1, b :: rest =>
    match severWalk rest h with
    | some (chunk, remainder) => some (b :: chunk, remainder)
    | none => none

/-- ThreadCache::Deallocate: null pointer or zero size is a no-op; sizes
above the threshold forward to CentralCache::Deallocate; otherwise push the
block, and if length × size now exceeds MAX_FREE_BYTES_PER_LIST, sever the
first length/2 nodes, reinstall the remainder, hand the severed chunk to
CentralCache::Deallocate and halve nextAllocateCount_ (floor 4). -/
def ThreadDeallocate (ptr memorySize : Nat) (ts : ThreadState)
    (cs : CentralState) (pst : PageCacheState) :
    ThreadState × CentralState × PageCacheState :=
  if memorySize = 0 ∨ ptr = 0 then (ts, cs, pst)
  else
    let size := GetSizeClass memorySize
    if MAX_CACHED_UNIT_SIZE < size then
      let r := CentralDeallocate [ptr] size cs pst
      (ts, r.1, r.2)
    else
      let index := GetIndex size
      let t := ts index
      let fl1 := ptr :: t.freeList
      let len1 := t.freeListSize + 1
      if MAX_FREE_BYTES_PER_LIST < len1 * size then
        let freeBlockSize := len1 / 2
        match severWalk fl1 (freeBlockSize - 1) with
        | none => (updT index ⟨fl1, len1, t.nextAllocateCount⟩ ts, cs, pst)
        | some (chunk, remainder) =>
          let r := CentralDeallocate chunk size cs pst
          (updT index
            ⟨remainder, len1 - freeBlockSize, max (t.nextAllocateCount / 2) 4⟩ ts,
           r.1, r.2)
      else (updT index ⟨fl1, len1, t.nextAllocateCount⟩ ts, cs, pst)

/-- The thread-cache state used by the flush witness: every class holds the
same 64-block list. -/
def c6Thread : ThreadState :=
  fun _ => ⟨(List.range 64).map fun i => 16 + 8 * i, 64, 0⟩

/-- The first class with a non-empty span set, and that set's least-address
element. -/
def firstNonEmpty : List (Nat × List MemSpan) → Option (Nat × MemSpan)
  | [] => none
  | (k, s) :: rest =>
    match s with
    | [] => firstNonEmpty rest
    | sp :: _ => some (k, sp)

/-- The best-fit choice, written from the spec's words: the smallest class of
freePageStore_ whose page count is at least the request, among those with a
non-empty set, and that set's first (least-address) element. -/
def bestFit (pageCount : Nat) (store : List (Nat × List MemSpan)) :
    Option (Nat × MemSpan) :=
  firstNonEmpty (store.filter fun p => decide (pageCount ≤ p.1))

/-- A fresh ThreadCache. -/
def threadState0 : ThreadState := fun _ => ⟨[], 0, 0⟩

/-- All blocks on every ThreadCache class free list are 8-aligned. -/
def AlignedTs (ts : ThreadState) : Prop :=
  ∀ i, ∀ b ∈ (ts i).freeList, b % 8 = 0

/-- All blocks on every CentralCache class free list are 8-aligned. -/
def AlignedCs (cs : CentralState) : Prop :=
  ∀ i, ∀ b ∈ (cs i).freeList, b % 8 = 0

/-- Every run stored in either PageCache index starts at an 8-aligned
address. -/
def AlignedPst (st : PageCacheState) : Prop :=
  (∀ p ∈ st.freePageStore, ∀ sp ∈ p.2, sp.data % 8 = 0) ∧
  (∀ p ∈ st.freePageMap, p.2.data % 8 = 0)

/-- The OS hands out only 8-aligned addresses: mmap returns page-aligned
memory and operator new returns max_align_t-aligned memory on 64-bit
platforms. -/
def AlignedSys (sys : Sys) : Prop :=
  (∀ i a, sys.mmapAddr i = some a → a % 8 = 0) ∧
  (∀ i a, sys.heapAddr i = some a → a % 8 = 0)

/-- Masking a 64-bit value with ~(2 ^ k - 1), i.e. with 2 ^ 64 - 2 ^ k, rounds
it down to a multiple of 2 ^ k. -/
theorem land_mask_eq (y k : Nat) (hy : y < 2 ^ 64) (hk : k ≤ 64) :
    y &&& (2 ^ 64 - 2 ^ k) = y / 2 ^ k * 2 ^ k := by
  have hmask : 2 ^ 64 - 2 ^ k = (2 ^ (64 - k) - 1) <<< k := by
    rw [Nat.shiftLeft_eq, Nat.sub_mul, ← Nat.pow_add, Nat.sub_add_cancel hk, one_mul]
  have hdiv : y / 2 ^ k * 2 ^ k = (y >>> k) <<< k := by
    rw [Nat.shiftRight_eq_div_pow, Nat.shiftLeft_eq]
  rw [hmask, hdiv]
  apply Nat.eq_of_testBit_eq
  intro i
  rw [Nat.testBit_land, Nat.testBit_shiftLeft, Nat.testBit_shiftLeft,
    Nat.testBit_shiftRight, Nat.testBit_two_pow_sub_one]
  by_cases hki : k ≤ i
  · have hik : k + (i - k) = i := by omega
    rw [hik]
    by_cases hi : i < 64
    · have h1 : i - k < 64 - k := by omega
      simp [hki, h1]
    · have h2 : y.testBit i = false := Nat.testBit_lt_two_pow (lt_of_lt_of_le hy (Nat.pow_le_pow_right (by omega) (by omega)))
      simp [h2]
  · simp [hki]

/-- Arithmetic form of `GetSizeClass`: each tier rounds up to a multiple of
its step (8, 128, 512 or 2048). -/
theorem getSizeClass_eq (n : Nat) :
    GetSizeClass n =
      if n = 0 then 8
      else if 32768 < n then n
      else if n ≤ 128 then (n + 7) / 8 * 8
      else if n ≤ 1024 then (n + 127) / 128 * 128
      else if n ≤ 8192 then (n + 511) / 512 * 512
      else (n + 2047) / 2048 * 2048 := by
  unfold GetSizeClass MAX_CACHED_UNIT_SIZE
  have h32 : (2 : Nat) ^ 15 = 32768 := by norm_num
  rw [h32]
  by_cases h0 : n = 0
  · simp [h0, sizeClassAt, SIZE_CLASSES]
  · simp only [h0, if_false]
    by_cases hbig : 32768 < n
    · simp [hbig]
    · have hle : ¬ n > 32768 := hbig
      simp only [hle, hbig, if_false, gt_iff_lt]
      by_cases h128 : n ≤ 128
      · have : (8 : Nat) = 2 ^ 3 := by norm_num
        simp only [h128, if_true]
        rw [show (2 ^ 64 - 8 : Nat) = 2 ^ 64 - 2 ^ 3 from by norm_num]
        exact land_mask_eq (n + 7) 3 (by omega) (by omega)
      · simp only [h128, if_false]
        by_cases h1024 : n ≤ 1024
        · simp only [h1024, if_true]
          rw [Nat.shiftRight_eq_div_pow, Nat.shiftLeft_eq]
        · simp only [h1024, if_false]
          by_cases h8192 : n ≤ 8192
          · simp only [h8192, if_true]
            rw [Nat.shiftRight_eq_div_pow, Nat.shiftLeft_eq]
          · simp only [h8192, if_false]
            rw [Nat.shiftRight_eq_div_pow, Nat.shiftLeft_eq]

/-- Rounding up to a multiple of s never goes below n. -/
theorem le_ceil_mul (n s : Nat) (hs : 0 < s) : n ≤ (n + s - 1) / s * s := by
  rcases Nat.eq_zero_or_pos n with h | h
  · simp [h]
  · have h1 : n + s - 1 = (n - 1) + s := by omega
    rw [h1, Nat.add_div_right _ hs, Nat.add_one_mul]
    have h2 := Nat.div_add_mod (n - 1) s
    have h2' : (n - 1) / s * s = s * ((n - 1) / s) := Nat.mul_comm _ _
    have h3 : (n - 1) % s < s := Nat.mod_lt _ hs
    omega

/-- Rounding up to a multiple of s is monotone. -/
theorem ceil_mul_mono (n m s : Nat) (h : n ≤ m) :
    (n + s - 1) / s * s ≤ (m + s - 1) / s * s :=
  Nat.mul_le_mul_right s (Nat.div_le_div_right (by omega))

/-- Rounding up to a multiple of s stays at or below any multiple of s that
is at least n. -/
theorem ceil_mul_le (n q s : Nat) (hs : 0 < s) (hn : n ≤ q * s) :
    (n + s - 1) / s * s ≤ q * s := by
  apply Nat.mul_le_mul_right s
  have h4 : n + s - 1 < (q + 1) * s := by
    have : (q + 1) * s = q * s + s := by ring
    omega
  have := (Nat.div_lt_iff_lt_mul hs).mpr h4
  omega

/-- Rounding up to a multiple of s fixes multiples of s. -/
theorem ceil_mul_of_dvd (c s : Nat) (hs : 0 < s) (h : s ∣ c) :
    (c + s - 1) / s * s = c := by
  obtain ⟨q, rfl⟩ := h
  rw [Nat.add_sub_assoc hs, Nat.mul_add_div hs]
  rw [Nat.div_eq_of_lt (by omega), Nat.add_zero, Nat.mul_comm]

/-- GetSizeClass on the first tier (1..128). -/
theorem gsc_r1 (n : Nat) (h1 : 1 ≤ n) (h2 : n ≤ 128) :
    GetSizeClass n = (n + 7) / 8 * 8 := by
  rw [getSizeClass_eq, if_neg (by omega : ¬ n = 0),
    if_neg (by omega : ¬ 32768 < n), if_pos h2]

/-- GetSizeClass on the second tier (129..1024). -/
theorem gsc_r2 (n : Nat) (h1 : 129 ≤ n) (h2 : n ≤ 1024) :
    GetSizeClass n = (n + 127) / 128 * 128 := by
  rw [getSizeClass_eq, if_neg (by omega : ¬ n = 0),
    if_neg (by omega : ¬ 32768 < n), if_neg (by omega : ¬ n ≤ 128), if_pos h2]

/-- GetSizeClass on the third tier (1025..8192). -/
theorem gsc_r3 (n : Nat) (h1 : 1025 ≤ n) (h2 : n ≤ 8192) :
    GetSizeClass n = (n + 511) / 512 * 512 := by
  rw [getSizeClass_eq, if_neg (by omega : ¬ n = 0),
    if_neg (by omega : ¬ 32768 < n), if_neg (by omega : ¬ n ≤ 128),
    if_neg (by omega : ¬ n ≤ 1024), if_pos h2]

/-- GetSizeClass on the fourth tier (8193..32768). -/
theorem gsc_r4 (n : Nat) (h1 : 8193 ≤ n) (h2 : n ≤ 32768) :
    GetSizeClass n = (n + 2047) / 2048 * 2048 := by
  rw [getSizeClass_eq, if_neg (by omega : ¬ n = 0),
    if_neg (by omega : ¬ 32768 < n), if_neg (by omega : ¬ n ≤ 128),
    if_neg (by omega : ¬ n ≤ 1024), if_neg (by omega : ¬ n ≤ 8192)]

/-- GetSizeClass above the cacheable threshold is the identity. -/
theorem gsc_big (n : Nat) (h : 32768 < n) : GetSizeClass n = n := by
  rw [getSizeClass_eq, if_neg (by omega : ¬ n = 0), if_pos h]

theorem gsc_r1_le (n : Nat) (h1 : 1 ≤ n) (h2 : n ≤ 128) : GetSizeClass n ≤ 128 := by
  rw [gsc_r1 n h1 h2]
  exact ceil_mul_le n 16 8 (by norm_num) (by omega)

theorem gsc_r2_le (n : Nat) (h1 : 129 ≤ n) (h2 : n ≤ 1024) : GetSizeClass n ≤ 1024 := by
  rw [gsc_r2 n h1 h2]
  exact ceil_mul_le n 8 128 (by norm_num) (by omega)

theorem gsc_r3_le (n : Nat) (h1 : 1025 ≤ n) (h2 : n ≤ 8192) : GetSizeClass n ≤ 8192 := by
  rw [gsc_r3 n h1 h2]
  exact ceil_mul_le n 16 512 (by norm_num) (by omega)

theorem gsc_r4_le (n : Nat) (h1 : 8193 ≤ n) (h2 : n ≤ 32768) : GetSizeClass n ≤ 32768 := by
  rw [gsc_r4 n h1 h2]
  exact ceil_mul_le n 16 2048 (by norm_num) (by omega)

/-- GetSizeClass never shrinks its argument. -/
theorem le_getSizeClass (n : Nat) : n ≤ GetSizeClass n := by
  rw [getSizeClass_eq]
  split_ifs with h0 hbig h128 h1024 h8192
  · omega
  · exact le_refl n
  · exact le_ceil_mul n 8 (by norm_num)
  · exact le_ceil_mul n 128 (by norm_num)
  · exact le_ceil_mul n 512 (by norm_num)
  · exact le_ceil_mul n 2048 (by norm_num)

/-- GetSizeClass of anything at or below the threshold stays at or below it. -/
theorem getSizeClass_le_32768 (n : Nat) (h : n ≤ 32768) : GetSizeClass n ≤ 32768 := by
  rcases Nat.eq_zero_or_pos n with h0 | h1
  · subst h0; decide
  · by_cases c1 : n ≤ 128
    · exact le_trans (gsc_r1_le n h1 c1) (by norm_num)
    · by_cases c2 : n ≤ 1024
      · exact le_trans (gsc_r2_le n (by omega) c2) (by norm_num)
      · by_cases c3 : n ≤ 8192
        · exact le_trans (gsc_r3_le n (by omega) c3) (by norm_num)
        · exact gsc_r4_le n (by omega) h

/-- GetSizeClass is monotone. -/
theorem getSizeClass_mono (n m : Nat) (hnm : n ≤ m) :
    GetSizeClass n ≤ GetSizeClass m := by
  by_cases hmbig : 32768 < m
  · rw [gsc_big m hmbig]
    by_cases hnbig : 32768 < n
    · rw [gsc_big n hnbig]; exact hnm
    · exact le_trans (getSizeClass_le_32768 n (by omega)) (by omega)
  · have hm32 : m ≤ 32768 := by omega
    rcases Nat.eq_zero_or_pos n with h0 | h1
    · subst h0
      rcases Nat.eq_zero_or_pos m with hm0 | hm1
      · subst hm0; exact le_refl _
      · show GetSizeClass 0 ≤ GetSizeClass m
        have h8 : (8 : Nat) ≤ GetSizeClass m := by
          by_cases c1 : m ≤ 128
          · rw [gsc_r1 m hm1 c1]
            have : 1 ≤ (m + 7) / 8 := (Nat.one_le_div_iff (by norm_num)).mpr (by omega)
            omega
          · exact le_trans (by omega) (le_trans (le_getSizeClass m) (le_refl _))
        have : GetSizeClass 0 = 8 := by decide
        omega
    · by_cases d1 : m ≤ 128
      · have hn128 : n ≤ 128 := by omega
        rw [gsc_r1 n h1 hn128, gsc_r1 m (by omega) d1]
        exact ceil_mul_mono n m 8 hnm
      · by_cases d2 : m ≤ 1024
        · by_cases c1 : n ≤ 128
          · exact le_trans (gsc_r1_le n h1 c1)
              (le_trans (by omega) (le_getSizeClass m))
          · rw [gsc_r2 n (by omega) (by omega), gsc_r2 m (by omega) d2]
            exact ceil_mul_mono n m 128 hnm
        · by_cases d3 : m ≤ 8192
          · by_cases c1 : n ≤ 128
            · exact le_trans (gsc_r1_le n h1 c1)
                (le_trans (by omega) (le_getSizeClass m))
            · by_cases c2 : n ≤ 1024
              · exact le_trans (gsc_r2_le n (by omega) c2)
                  (le_trans (by omega) (le_getSizeClass m))
              · rw [gsc_r3 n (by omega) (by omega), gsc_r3 m (by omega) d3]
                exact ceil_mul_mono n m 512 hnm
          · by_cases c1 : n ≤ 128
            · exact le_trans (gsc_r1_le n h1 c1)
                (le_trans (by omega) (le_getSizeClass m))
            · by_cases c2 : n ≤ 1024
              · exact le_trans (gsc_r2_le n (by omega) c2)
                  (le_trans (by omega) (le_getSizeClass m))
              · by_cases c3 : n ≤ 8192
                · exact le_trans (gsc_r3_le n (by omega) c3)
                    (le_trans (by omega) (le_getSizeClass m))
                · rw [gsc_r4 n (by omega) (by omega), gsc_r4 m (by omega) hm32]
                  exact ceil_mul_mono n m 2048 hnm

/-- GetSizeClass is idempotent. -/
theorem getSizeClass_idem (n : Nat) :
    GetSizeClass (GetSizeClass n) = GetSizeClass n := by
  by_cases hbig : 32768 < n
  · rw [gsc_big n hbig, gsc_big n hbig]
  · rcases Nat.eq_zero_or_pos n with h0 | h1
    · subst h0; decide
    · by_cases c1 : n ≤ 128
      · rw [gsc_r1 n h1 c1]
        have hd : 8 ∣ (n + 7) / 8 * 8 := Dvd.intro_left _ rfl
        have hge : n ≤ (n + 7) / 8 * 8 := le_ceil_mul n 8 (by norm_num)
        have hle : (n + 7) / 8 * 8 ≤ 128 := by
          have := gsc_r1_le n h1 c1; rw [gsc_r1 n h1 c1] at this; exact this
        rw [gsc_r1 _ (by omega) hle]
        exact ceil_mul_of_dvd _ 8 (by norm_num) hd
      · by_cases c2 : n ≤ 1024
        · rw [gsc_r2 n (by omega) c2]
          have hd : 128 ∣ (n + 127) / 128 * 128 := Dvd.intro_left _ rfl
          have hge : n ≤ (n + 127) / 128 * 128 := le_ceil_mul n 128 (by norm_num)
          have hle : (n + 127) / 128 * 128 ≤ 1024 := by
            have := gsc_r2_le n (by omega) c2; rw [gsc_r2 n (by omega) c2] at this; exact this
          rw [gsc_r2 _ (by omega) hle]
          exact ceil_mul_of_dvd _ 128 (by norm_num) hd
        · by_cases c3 : n ≤ 8192
          · rw [gsc_r3 n (by omega) c3]
            have hd : 512 ∣ (n + 511) / 512 * 512 := Dvd.intro_left _ rfl
            have hge : n ≤ (n + 511) / 512 * 512 := le_ceil_mul n 512 (by norm_num)
            have hle : (n + 511) / 512 * 512 ≤ 8192 := by
              have := gsc_r3_le n (by omega) c3; rw [gsc_r3 n (by omega) c3] at this; exact this
            rw [gsc_r3 _ (by omega) hle]
            exact ceil_mul_of_dvd _ 512 (by norm_num) hd
          · rw [gsc_r4 n (by omega) (by omega)]
            have hd : 2048 ∣ (n + 2047) / 2048 * 2048 := Dvd.intro_left _ rfl
            have hge : n ≤ (n + 2047) / 2048 * 2048 := le_ceil_mul n 2048 (by norm_num)
            have hle : (n + 2047) / 2048 * 2048 ≤ 32768 := by
              have := gsc_r4_le n (by omega) (by omega)
              rw [gsc_r4 n (by omega) (by omega)] at this; exact this
            rw [gsc_r4 _ (by omega) hle]
            exact ceil_mul_of_dvd _ 2048 (by norm_num) hd

/-- GetIndex is a function of the size class alone. -/
theorem getIndex_congr (n m : Nat) (h : GetSizeClass n = GetSizeClass m) :
    GetIndex n = GetIndex m := by
  by_cases hn : n = 0
  · subst hn
    by_cases hm : m = 0
    · subst hm; rfl
    · have h8 : GetSizeClass m = 8 := by
        have : GetSizeClass 0 = 8 := by decide
        omega
      simp only [GetIndex, if_neg hm, h8]
      decide
  · by_cases hm : m = 0
    · subst hm
      have h8 : GetSizeClass n = 8 := by
        have : GetSizeClass 0 = 8 := by decide
        omega
      simp only [GetIndex, if_neg hn, h8]
      decide
    · simp only [GetIndex, if_neg hn, if_neg hm, h]

/-- C1: the claim that SIZE_CLASSES[GetIndex(GetSizeClass(n))] equals
GetSizeClass(n) for every 1 ≤ n ≤ 32768 fails at n = 17: GetSizeClass
rounds 17 up to 24, GetIndex files size class 24 at table position 2, but
SIZE_CLASSES[2] is 32, so the very assertion CentralCache::Deallocate makes
(SIZE_CLASSES[index] == memorySize) is violated by the code's own size-class
scheme. -/
theorem sizeClass_table_index_mismatch_at_17 :
    GetSizeClass 17 = 24 ∧
    GetIndex (GetSizeClass 17) = 2 ∧
    sizeClassAt (GetIndex (GetSizeClass 17)) = 32 ∧
    sizeClassAt (GetIndex (GetSizeClass 17)) ≠ GetSizeClass 17 := by
  refine ⟨by decide, by decide, by decide, by decide⟩

/-- C2: the claim that GetSizeClass(n) is the smallest SIZE_CLASSES entry
that is at least n fails at n = 17: the smallest table entry ≥ 17 is 32,
but GetSizeClass(17) = 24, a value that does not occur in the table at all. -/
theorem getSizeClass_not_smallest_table_entry_at_17 :
    GetSizeClass 17 = 24 ∧
    smallestTableEntryGE 17 = some 32 ∧
    (24 ∈ SIZE_CLASSES) = False := by
  refine ⟨by decide, by decide, by decide⟩

/-- C10: GetSizeClass is a monotone closure operator (inflationary, monotone,
idempotent), and GetIndex depends on the argument only through its size class,
so two sizes that round to the same class are filed in the same free list. -/
theorem getSizeClass_closure_props :
    (∀ n, n ≤ GetSizeClass n) ∧
    (∀ n m, n ≤ m → GetSizeClass n ≤ GetSizeClass m) ∧
    (∀ n, GetSizeClass (GetSizeClass n) = GetSizeClass n) ∧
    (∀ n m, GetSizeClass n = GetSizeClass m → GetIndex n = GetIndex m) :=
  ⟨le_getSizeClass, getSizeClass_mono, getSizeClass_idem, getIndex_congr⟩

/-- Witness for C10 at concrete inputs: monotonicity applied at 17 ≤ 300 and
index congruence applied at 17, 23 (both round to size class 24). -/
theorem getSizeClass_closure_props_witness :
    GetSizeClass 17 ≤ GetSizeClass 300 ∧ GetIndex 17 = GetIndex 23 :=
  ⟨getSizeClass_closure_props.2.1 17 300 (by decide),
   getSizeClass_closure_props.2.2.2 17 23 (by decide)⟩

theorem gapped_lt {map : List (Nat × MemSpan)} (hg : Gapped map) :
    map.Pairwise fun p q => p.1 < q.1 :=
  hg.imp fun h => by omega

/-- Any two distinct entries of a gapped map with ordered keys stand strictly
apart. -/
theorem gapped_pairs {map : List (Nat × MemSpan)} (hg : Gapped map) :
    ∀ p ∈ map, ∀ q ∈ map, p ≠ q → p.1 < q.1 → p.1 + p.2.size < q.1 := by
  have hs : map.Pairwise fun p q =>
      (p.1 < q.1 → p.1 + p.2.size < q.1) ∧ (q.1 < p.1 → q.1 + q.2.size < p.1) :=
    hg.imp fun h => ⟨fun _ => h, fun hlt => by omega⟩
  have hsym : Symmetric fun p q : Nat × MemSpan =>
      (p.1 < q.1 → p.1 + p.2.size < q.1) ∧ (q.1 < p.1 → q.1 + q.2.size < p.1) :=
    fun p q h => ⟨h.2, h.1⟩
  intro p hp q hq hne hlt
  exact (List.Pairwise.forall hsym hs hp hq hne).1 hlt

/-- In a gapped map, keys identify entries. -/
theorem gapped_key_unique {map : List (Nat × MemSpan)} (hg : Gapped map) :
    ∀ p ∈ map, ∀ q ∈ map, p.1 = q.1 → p = q := by
  have hlt := gapped_lt hg
  have hs : map.Pairwise fun p q : Nat × MemSpan => p.1 = q.1 → p = q :=
    hlt.imp fun h he => by omega
  have hsym : Symmetric fun p q : Nat × MemSpan => p.1 = q.1 → p = q :=
    fun p q h he => (h he.symm).symm
  intro p hp q hq he
  by_cases hne : p = q
  · exact hne
  · exact List.Pairwise.forall hsym hs hp hq hne he

theorem alistPredLE_mem {α : Type} {x : Nat} {l : List (Nat × α)} {p : Nat × α}
    (h : alistPredLE x l = some p) : p ∈ l := by
  induction l generalizing p with
  | nil => simp [alistPredLE] at h
  | cons a rest ih =>
    rw [show a = (a.1, a.2) from rfl] at h
    by_cases hk : a.1 ≤ x
    · simp only [alistPredLE, if_pos hk, Option.some_inj] at h
      cases h' : alistPredLE x rest with
      | none => rw [h', Option.getD_none] at h; rw [← h]; exact List.mem_cons_self _ _
      | some p' =>
        rw [h', Option.getD_some] at h
        subst h
        exact List.mem_cons_of_mem _ (ih h')
    · simp [alistPredLE, if_neg hk] at h

theorem alistPredLE_le {α : Type} {x : Nat} {l : List (Nat × α)} {p : Nat × α}
    (h : alistPredLE x l = some p) : p.1 ≤ x := by
  induction l generalizing p with
  | nil => simp [alistPredLE] at h
  | cons a rest ih =>
    rw [show a = (a.1, a.2) from rfl] at h
    by_cases hk : a.1 ≤ x
    · simp only [alistPredLE, if_pos hk, Option.some_inj] at h
      cases h' : alistPredLE x rest with
      | none => rw [h', Option.getD_none] at h; rw [← h]; exact hk
      | some p' =>
        rw [h', Option.getD_some] at h
        subst h
        exact ih h'
    · simp [alistPredLE, if_neg hk] at h

theorem alistPredLE_none {α : Type} {x : Nat} {l : List (Nat × α)}
    (hsort : l.Pairwise fun p q => p.1 < q.1)
    (h : alistPredLE x l = none) : ∀ q ∈ l, x < q.1 := by
  cases l with
  | nil => intro q hq; simp at hq
  | cons a rest =>
    rw [show a = (a.1, a.2) from rfl] at h
    by_cases hk : a.1 ≤ x
    · simp [alistPredLE, if_pos hk] at h
    · intro q hq
      rcases List.mem_cons.mp hq with rfl | hq'
      · omega
      · exact lt_trans (by omega) (List.rel_of_pairwise_cons hsort hq')

theorem alistPredLE_max {α : Type} {x : Nat} {l : List (Nat × α)} {p : Nat × α}
    (hsort : l.Pairwise fun p q => p.1 < q.1)
    (h : alistPredLE x l = some p) : ∀ q ∈ l, q.1 ≤ x → q.1 ≤ p.1 := by
  induction l generalizing p with
  | nil => simp [alistPredLE] at h
  | cons a rest ih =>
    rw [show a = (a.1, a.2) from rfl] at h
    by_cases hk : a.1 ≤ x
    · simp only [alistPredLE, if_pos hk, Option.some_inj] at h
      intro q hq hqx
      cases h' : alistPredLE x rest with
      | none =>
        rw [h', Option.getD_none] at h
        rcases List.mem_cons.mp hq with rfl | hq'
        · rw [← h]
        · exact absurd hqx (by have := alistPredLE_none hsort.tail h' q hq'; omega)
      | some p' =>
        rw [h', Option.getD_some] at h
        subst h
        rcases List.mem_cons.mp hq with rfl | hq'
        · have hmem := alistPredLE_mem h'
          have := List.rel_of_pairwise_cons hsort hmem
          omega
        · exact ih hsort.tail h' q hq' hqx
    · simp [alistPredLE, if_neg hk] at h

theorem alistFind_mem {α : Type} {k : Nat} {l : List (Nat × α)} {v : α}
    (h : alistFind k l = some v) : (k, v) ∈ l := by
  induction l with
  | nil => simp [alistFind] at h
  | cons a rest ih =>
    rw [show a = (a.1, a.2) from rfl] at h ⊢
    by_cases hk : k = a.1
    · simp only [alistFind, if_pos hk] at h
      subst hk
      have hv := Option.some.inj h
      exact List.mem_cons.mpr (Or.inl (by rw [← hv]))
    · simp only [alistFind, if_neg hk] at h
      exact List.mem_cons_of_mem _ (ih h)

theorem alistFind_none {α : Type} {k : Nat} {l : List (Nat × α)}
    (h : alistFind k l = none) : ∀ q ∈ l, q.1 ≠ k := by
  induction l with
  | nil => intro q hq; simp at hq
  | cons a rest ih =>
    rw [show a = (a.1, a.2) from rfl] at h
    by_cases hk : k = a.1
    · simp [alistFind, if_pos hk] at h
    · intro q hq
      rcases List.mem_cons.mp hq with rfl | hq'
      · simpa using fun he => hk he.symm
      · exact ih (by simpa [alistFind, if_neg hk] using h) q hq'

theorem alistErase_sublist {α : Type} (k : Nat) (l : List (Nat × α)) :
    (alistErase k l).Sublist l := by
  induction l with
  | nil => simp [alistErase]
  | cons a rest ih =>
    rw [show a = (a.1, a.2) from rfl]
    by_cases hk : k = a.1
    · simp only [alistErase, if_pos hk]
      exact List.sublist_cons_self _ _
    · simpa [alistErase, if_neg hk] using ih.cons₂ (a.1, a.2)

theorem alistErase_mem {α : Type} {k : Nat} {l : List (Nat × α)} {q : Nat × α}
    (h : q ∈ alistErase k l) : q ∈ l :=
  (alistErase_sublist k l).mem h

theorem alistErase_key_ne {α : Type} {k : Nat} {l : List (Nat × α)} {q : Nat × α}
    (hsort : l.Pairwise fun p q => p.1 < q.1)
    (h : q ∈ alistErase k l) : q.1 ≠ k := by
  induction l with
  | nil => simp [alistErase] at h
  | cons a rest ih =>
    rw [show a = (a.1, a.2) from rfl] at h
    by_cases hk : k = a.1
    · simp only [alistErase, if_pos hk] at h
      have := List.rel_of_pairwise_cons hsort h
      omega
    · simp only [alistErase, if_neg hk] at h
      rcases List.mem_cons.mp h with rfl | h'
      · simpa using fun he => hk he.symm
      · exact ih hsort.tail h'

theorem alistEmplace_mem {α : Type} {k : Nat} {v : α} {l : List (Nat × α)} {q : Nat × α}
    (h : q ∈ alistEmplace k v l) : q = (k, v) ∨ q ∈ l := by
  induction l with
  | nil => simpa [alistEmplace] using h
  | cons a rest ih =>
    rw [show a = (a.1, a.2) from rfl] at h
    by_cases h1 : k < a.1
    · simp only [alistEmplace, if_pos h1] at h
      rcases List.mem_cons.mp h with rfl | h' <;> simp [*]
    · by_cases h2 : k = a.1
      · simp only [alistEmplace, if_neg h1, if_pos h2] at h
        simp [h]
      · simp only [alistEmplace, if_neg h1, if_neg h2] at h
        rcases List.mem_cons.mp h with rfl | h'
        · simp
        · rcases ih h' with h'' | h'' <;> simp [h'']

theorem alistEmplace_pairwise {α : Type} {R : (Nat × α) → (Nat × α) → Prop}
    {k : Nat} {v : α} {l : List (Nat × α)}
    (hp : l.Pairwise R) (hsort : l.Pairwise fun p q => p.1 < q.1)
    (hlt : ∀ p ∈ l, p.1 < k → R p (k, v))
    (hgt : ∀ p ∈ l, k < p.1 → R (k, v) p) :
    (alistEmplace k v l).Pairwise R := by
  induction l with
  | nil => simp only [alistEmplace]; exact List.pairwise_singleton R (k, v)
  | cons a rest ih =>
    rw [show a = (a.1, a.2) from rfl]
    by_cases h1 : k < a.1
    · simp only [alistEmplace, if_pos h1]
      refine List.Pairwise.cons ?_ hp
      intro q hq
      rcases List.mem_cons.mp hq with rfl | hq'
      · exact hgt _ (List.mem_cons_self _ _) h1
      · have := List.rel_of_pairwise_cons hsort hq'
        exact hgt q (List.mem_cons_of_mem _ hq') (by omega)
    · by_cases h2 : k = a.1
      · simpa [alistEmplace, if_neg h1, if_pos h2] using hp
      · simp only [alistEmplace, if_neg h1, if_neg h2]
        refine List.Pairwise.cons ?_ (ih hp.tail hsort.tail
          (fun p hp' => hlt p (List.mem_cons_of_mem _ hp'))
          (fun p hp' => hgt p (List.mem_cons_of_mem _ hp')))
        intro q hq
        rcases alistEmplace_mem hq with rfl | hq'
        · exact hlt _ (List.mem_cons_self _ _) (by omega)
        · exact List.rel_of_pairwise_cons hp hq'

/-- One step of the left-merge loop when the predecessor lookup fails. -/
theorem mergeLeft_succ_none {f : Nat} {page : MemSpan}
    {store : List (Nat × List MemSpan)} {map : List (Nat × MemSpan)}
    (hp : alistPredLE page.data map = none) :
    mergeLeft (f + 1) page store map = (page, store, map) := by
  cases map with
  | nil => rfl
  | cons a rest =>
    simp only [mergeLeft]
    rw [hp]

/-- One step of the left-merge loop when the predecessor lookup succeeds. -/
theorem mergeLeft_succ_some {f : Nat} {page : MemSpan}
    {store : List (Nat × List MemSpan)} {map : List (Nat × MemSpan)}
    {k : Nat} {prev : MemSpan}
    (hp : alistPredLE page.data map = some (k, prev)) :
    mergeLeft (f + 1) page store map =
      if prev.data + prev.size = page.data then
        mergeLeft f ⟨prev.data, prev.size + page.size⟩
          (storeApply (prev.size / PAGE_SIZE) (spanSetErase prev) store)
          (alistErase k map)
      else (page, store, map) := by
  cases map with
  | nil => simp [alistPredLE] at hp
  | cons a rest =>
    simp only [mergeLeft]
    rw [hp]

/-- When no stored run ends at the page's start, the left-merge loop returns
its arguments unchanged (one predecessor lookup, no merge). -/
theorem mergeLeft_no_touch {f : Nat} {page : MemSpan}
    {store : List (Nat × List MemSpan)} {map : List (Nat × MemSpan)}
    (h : ∀ q ∈ map, q.2.data + q.2.size ≠ page.data) :
    mergeLeft (f + 1) page store map = (page, store, map) := by
  cases hp : alistPredLE page.data map with
  | none => exact mergeLeft_succ_none hp
  | some kp =>
    obtain ⟨k, prev⟩ := kp
    have hne := h (k, prev) (alistPredLE_mem hp)
    rw [mergeLeft_succ_some hp, if_neg hne]

/-- Outcome of the left-merge loop on a well-formed gapped map: the map stays
well formed and gapped, the page is only ever extended to the left, and
afterwards no remaining stored run ends at the page's start. -/
theorem mergeLeft_post {f : Nat} {page : MemSpan}
    {store : List (Nat × List MemSpan)} {map : List (Nat × MemSpan)}
    {p' : MemSpan} {s' : List (Nat × List MemSpan)} {m' : List (Nat × MemSpan)}
    (hwf : MapWF map) (hg : Gapped map) (hpos : 0 < page.size)
    (hdisj : DisjointFrom page map)
    (heq : mergeLeft (f + 2) page store map = (p', s', m')) :
    MapWF m' ∧ Gapped m' ∧ (∀ q ∈ m', q ∈ map) ∧ 0 < p'.size ∧
    p'.data ≤ page.data ∧ p'.data + p'.size = page.data + page.size ∧
    DisjointFrom p' m' ∧ (∀ q ∈ m', q.2.data + q.2.size ≠ p'.data) := by
  have hsort := gapped_lt hg
  cases hp : alistPredLE page.data map with
  | none =>
    rw [mergeLeft_succ_none hp] at heq
    cases heq
    have hgt := alistPredLE_none hsort hp
    refine ⟨hwf, hg, fun q hq => hq, hpos, le_refl _, rfl, hdisj, ?_⟩
    intro q hq
    have h1 := (hwf q hq).2
    have h2 := (hwf q hq).1
    have := hgt q hq
    omega
  | some kp =>
    obtain ⟨k, prev⟩ := kp
    have hmem := alistPredLE_mem hp
    have hkle := alistPredLE_le hp
    obtain ⟨hkey, hpsz⟩ := hwf (k, prev) hmem
    simp only at hkey hpsz hkle
    rw [mergeLeft_succ_some hp] at heq
    by_cases htouch : prev.data + prev.size = page.data
    · rw [if_pos htouch] at heq
      -- one merge happened; show the recursive call finds no second toucher
      have hclean : ∀ q ∈ alistErase k map,
          q.2.data + q.2.size ≠ (⟨prev.data, prev.size + page.size⟩ : MemSpan).data := by
        intro q hq
        show q.2.data + q.2.size ≠ prev.data
        have hqmem := alistErase_mem hq
        have hqk := alistErase_key_ne hsort hq
        obtain ⟨hq1, hq2⟩ := hwf q hqmem
        rcases Nat.lt_or_ge q.1 k with hlt | hge
        · have := gapped_pairs hg q hqmem (k, prev) hmem
            (fun he => absurd (congrArg Prod.fst he) (by simp; omega)) hlt
          simp only at this
          omega
        · have hgt : k < q.1 := by omega
          omega
      rw [mergeLeft_no_touch hclean] at heq
      cases heq
      have hsub : ∀ q ∈ alistErase k map, q ∈ map :=
        fun q hq => alistErase_mem hq
      have hgsub : Gapped (alistErase k map) :=
        List.Pairwise.sublist (alistErase_sublist _ _) hg
      refine ⟨fun q hq => hwf q (hsub q hq), hgsub, hsub,
        by show 0 < prev.size + page.size; omega,
        by show prev.data ≤ page.data; omega,
        by show prev.data + (prev.size + page.size) = page.data + page.size; omega,
        ?_, hclean⟩
      intro q hq
      have hqmem := hsub q hq
      have hqk := alistErase_key_ne hsort hq
      obtain ⟨hq1, hq2⟩ := hwf q hqmem
      show q.2.data + q.2.size ≤ prev.data ∨ prev.data + (prev.size + page.size) ≤ q.2.data
      rcases hdisj q hqmem with hL | hR
      · rcases Nat.lt_or_ge q.1 k with hlt | hge
        · have := gapped_pairs hg q hqmem (k, prev) hmem
            (fun he => absurd (congrArg Prod.fst he) (by simp; omega)) hlt
          simp only at this
          left
          omega
        · exfalso
          have hgt : k < q.1 := by omega
          have := gapped_pairs hg (k, prev) hmem q hqmem
            (fun he => absurd (congrArg Prod.fst he) (by simp; omega)) hgt
          simp only at this
          omega
      · right
        omega
    · rw [if_neg htouch] at heq
      cases heq
      refine ⟨hwf, hg, fun q hq => hq, hpos, le_refl _, rfl, hdisj, ?_⟩
      intro q hq
      obtain ⟨hq1, hq2⟩ := hwf q hq
      rcases Nat.lt_or_ge page.data q.1 with hgt | hle
      · omega
      · have hqk : q.1 ≤ k := alistPredLE_max hsort hp q hq hle
        rcases Nat.lt_or_ge q.1 k with hlt | hge
        · have := gapped_pairs hg q hq (k, prev) hmem
            (fun he => absurd (congrArg Prod.fst he) (by simp; omega)) hlt
          simp only at this
          omega
        · have : q = (k, prev) := gapped_key_unique hg q hq (k, prev) hmem (by omega)
          rw [this]
          simpa using htouch

/-- One step of the right-merge loop when no run is indexed at the page's
end. -/
theorem mergeRight_succ_none {f : Nat} {page : MemSpan}
    {store : List (Nat × List MemSpan)} {map : List (Nat × MemSpan)}
    (hf : alistFind (page.data + page.size) map = none) :
    mergeRight (f + 1) page store map = (page, store, map) := by
  cases map with
  | nil => rfl
  | cons a rest =>
    simp only [mergeRight]
    rw [hf]

/-- One step of the right-merge loop when a run is indexed at the page's
end. -/
theorem mergeRight_succ_some {f : Nat} {page : MemSpan}
    {store : List (Nat × List MemSpan)} {map : List (Nat × MemSpan)}
    {next : MemSpan}
    (hf : alistFind (page.data + page.size) map = some next) :
    mergeRight (f + 1) page store map =
      mergeRight f ⟨page.data, page.size + next.size⟩
        (storeApply (next.size / PAGE_SIZE) (spanSetErase next) store)
        (alistErase (page.data + page.size) map) := by
  cases map with
  | nil => simp [alistFind] at hf
  | cons a rest =>
    simp only [mergeRight]
    rw [hf]

/-- When no stored run starts at the page's end, the right-merge loop returns
its arguments unchanged. -/
theorem mergeRight_no_touch {f : Nat} {page : MemSpan}
    {store : List (Nat × List MemSpan)} {map : List (Nat × MemSpan)}
    (h : ∀ q ∈ map, q.1 ≠ page.data + page.size) :
    mergeRight (f + 1) page store map = (page, store, map) := by
  cases hf : alistFind (page.data + page.size) map with
  | none => exact mergeRight_succ_none hf
  | some v =>
    exact absurd rfl (h _ (alistFind_mem hf))

/-- Outcome of the right-merge loop: the map stays well formed and gapped,
the page keeps its start and is only extended to the right, and afterwards
every remaining stored run stands strictly apart from the page on both
sides (given that the left side was already strictly apart). -/
theorem mergeRight_post {f : Nat} {page : MemSpan}
    {store : List (Nat × List MemSpan)} {map : List (Nat × MemSpan)}
    {p' : MemSpan} {s' : List (Nat × List MemSpan)} {m' : List (Nat × MemSpan)}
    (hwf : MapWF map) (hg : Gapped map) (hpos : 0 < page.size)
    (hdisj : DisjointFrom page map)
    (hleft : ∀ q ∈ map, q.2.data + q.2.size ≠ page.data)
    (heq : mergeRight (f + 2) page store map = (p', s', m')) :
    MapWF m' ∧ Gapped m' ∧ (∀ q ∈ m', q ∈ map) ∧ 0 < p'.size ∧
    p'.data = page.data ∧
    (∀ q ∈ m', q.2.data + q.2.size < p'.data ∨ p'.data + p'.size < q.2.data) := by
  have hsort := gapped_lt hg
  cases hf : alistFind (page.data + page.size) map with
  | none =>
    rw [mergeRight_succ_none hf] at heq
    cases heq
    have hnone := alistFind_none hf
    refine ⟨hwf, hg, fun q hq => hq, hpos, rfl, ?_⟩
    intro q hq
    obtain ⟨hq1, hq2⟩ := hwf q hq
    have hne1 := hleft q hq
    have hne2 := hnone q hq
    rcases hdisj q hq with hL | hR
    · left; omega
    · right; omega
  | some next =>
    have hmem := alistFind_mem hf
    obtain ⟨hkey, hnsz⟩ := hwf (page.data + page.size, next) hmem
    simp only at hkey hnsz
    rw [mergeRight_succ_some hf] at heq
    have hclean : ∀ q ∈ alistErase (page.data + page.size) map,
        q.1 ≠ (⟨page.data, page.size + next.size⟩ : MemSpan).data
          + (⟨page.data, page.size + next.size⟩ : MemSpan).size := by
      intro q hq
      show q.1 ≠ page.data + (page.size + next.size)
      have hqmem := alistErase_mem hq
      have hqk := alistErase_key_ne hsort hq
      obtain ⟨hq1, hq2⟩ := hwf q hqmem
      rcases Nat.lt_or_ge q.1 (page.data + page.size) with hlt | hge
      · omega
      · have hgt : page.data + page.size < q.1 := by omega
        have := gapped_pairs hg (page.data + page.size, next) hmem q hqmem
          (fun he => absurd (congrArg Prod.fst he) (by simp; omega)) hgt
        simp only at this
        omega
    rw [mergeRight_no_touch hclean] at heq
    cases heq
    have hsub : ∀ q ∈ alistErase (page.data + page.size) map, q ∈ map :=
      fun q hq => alistErase_mem hq
    have hgsub : Gapped (alistErase (page.data + page.size) map) :=
      List.Pairwise.sublist (alistErase_sublist _ _) hg
    refine ⟨fun q hq => hwf q (hsub q hq), hgsub, hsub,
      by show 0 < page.size + next.size; omega, rfl, ?_⟩
    intro q hq
    have hqmem := hsub q hq
    have hqk := alistErase_key_ne hsort hq
    obtain ⟨hq1, hq2⟩ := hwf q hqmem
    show q.2.data + q.2.size < page.data ∨ page.data + (page.size + next.size) < q.2.data
    rcases hdisj q hqmem with hL | hR
    · left
      have hne1 := hleft q hqmem
      omega
    · have hgt : page.data + page.size < q.1 := by omega
      have := gapped_pairs hg (page.data + page.size, next) hmem q hqmem
        (fun he => absurd (congrArg Prod.fst he) (by simp; omega)) hgt
      simp only at this
      right
      omega

/-- C5: after any call to PageCache::DeallocatePage on a well-formed state
(runs keyed by their base address, non-empty, pairwise gapped) with a returned
run that does not overlap any stored run, the free index freePageMap_ again
contains no two runs that overlap or touch: a run touching the page on
either side is merged into it before insertion, so any two distinct stored
runs stand strictly apart. -/
theorem deallocatePage_no_overlap_no_touch (page : MemSpan) (st : PageCacheState)
    (hwf : MapWF st.freePageMap) (hg : Gapped st.freePageMap)
    (hpos : 0 < page.size) (hdisj : DisjointFrom page st.freePageMap) :
    Gapped (DeallocatePage page st).freePageMap ∧
    MapWF (DeallocatePage page st).freePageMap ∧
    (∀ p ∈ (DeallocatePage page st).freePageMap,
      ∀ q ∈ (DeallocatePage page st).freePageMap, p ≠ q →
        p.2.data + p.2.size < q.2.data ∨ q.2.data + q.2.size < p.2.data) := by
  rcases hml : mergeLeft 100 page st.freePageStore st.freePageMap with ⟨p1, s1, m1⟩
  have hml' : mergeLeft (98 + 2) page st.freePageStore st.freePageMap = (p1, s1, m1) := hml
  obtain ⟨hwf1, hg1, hsub1, hpos1, hle1, hend1, hdisj1, hleft1⟩ :=
    mergeLeft_post hwf hg hpos hdisj hml'
  rcases hmr : mergeRight 100 p1 s1 m1 with ⟨p2, s2, m2⟩
  have hmr' : mergeRight (98 + 2) p1 s1 m1 = (p2, s2, m2) := hmr
  obtain ⟨hwf2, hg2, hsub2, hpos2, hdata2, hstrict2⟩ :=
    mergeRight_post hwf1 hg1 hpos1 hdisj1 hleft1 hmr'
  have hD : (DeallocatePage page st).freePageMap = alistEmplace p2.data p2 m2 := by
    simp only [DeallocatePage]
    rw [hml]
    dsimp only
    rw [hmr]
  rw [hD]
  have hlt : ∀ q ∈ m2, q.1 < p2.data → q.1 + q.2.size < p2.data := by
    intro q hq hqlt
    obtain ⟨hq1, hq2⟩ := hwf2 q hq
    rcases hstrict2 q hq with hL | hR <;> omega
  have hgt : ∀ q ∈ m2, p2.data < q.1 → p2.data + p2.size < q.1 := by
    intro q hq hqgt
    obtain ⟨hq1, hq2⟩ := hwf2 q hq
    rcases hstrict2 q hq with hL | hR <;> omega
  have hGfinal : Gapped (alistEmplace p2.data p2 m2) := by
    refine alistEmplace_pairwise hg2 (gapped_lt hg2) ?_ ?_
    · intro q hq hqlt
      have := hlt q hq hqlt
      simpa using this
    · intro q hq hqgt
      have := hgt q hq hqgt
      simpa using this
  have hWfinal : MapWF (alistEmplace p2.data p2 m2) := by
    intro q hq
    rcases alistEmplace_mem hq with rfl | hq'
    · exact ⟨rfl, hpos2⟩
    · exact hwf2 q hq'
  refine ⟨hGfinal, hWfinal, ?_⟩
  intro p hp q hq hne
  obtain ⟨hp1, hp2⟩ := hWfinal p hp
  obtain ⟨hq1, hq2⟩ := hWfinal q hq
  rcases Nat.lt_trichotomy p.1 q.1 with hlt' | heq' | hgt'
  · have := gapped_pairs hGfinal p hp q hq hne hlt'
    left; omega
  · exact absurd (gapped_key_unique hGfinal p hp q hq heq') hne
  · have := gapped_pairs hGfinal q hq p hp (fun h => hne h.symm) hgt'
    right; omega

/-- Witness for C5: returning the run at 8192 of one page into a state
holding the runs at 4096 and 12288 merges all three into one stored run. -/
theorem deallocatePage_no_overlap_no_touch_witness :
    Gapped (DeallocatePage ⟨8192, 4096⟩
      ⟨[(1, [⟨4096, 4096⟩, ⟨12288, 4096⟩])],
       [(4096, ⟨4096, 4096⟩), (12288, ⟨12288, 4096⟩)], []⟩).freePageMap ∧
    MapWF (DeallocatePage ⟨8192, 4096⟩
      ⟨[(1, [⟨4096, 4096⟩, ⟨12288, 4096⟩])],
       [(4096, ⟨4096, 4096⟩), (12288, ⟨12288, 4096⟩)], []⟩).freePageMap := by
  have h := deallocatePage_no_overlap_no_touch ⟨8192, 4096⟩
    ⟨[(1, [⟨4096, 4096⟩, ⟨12288, 4096⟩])],
     [(4096, ⟨4096, 4096⟩), (12288, ⟨12288, 4096⟩)], []⟩
    (by intro p hp; fin_cases hp <;> refine ⟨rfl, by norm_num⟩)
    (by unfold Gapped; norm_num [List.pairwise_cons])
    (by norm_num)
    (by intro p hp; fin_cases hp <;> simp)
  exact ⟨h.1, h.2.1⟩

/-- C3: CentralCache::Deallocate never decrements in_use_count and therefore
never recycles a run.  After allocating sixteen 32 KiB blocks from a fresh
2 MiB run (in_use_count = 16) and handing the whole chain back, the span
record still shows in_use_count = 16, the record is still in the class page
map, all 64 blocks of the run sit on the class free list, and nothing was
returned to PageCache — whereas the claim requires each freed block to
decrement the count and, on reaching zero (here after the 16th block), the
run to be purged and returned. -/
theorem centralDeallocate_never_decrements_never_recycles :
    (c3Freed.1 31).pageMap = [(4096, ⟨4096, 2097152, 32768, 16⟩)] ∧
    c3Freed.2.freePageMap = c3Alloc.2.2.1.freePageMap ∧
    c3Freed.2.freePageStore = c3Alloc.2.2.1.freePageStore ∧
    (c3Freed.1 31).freeListSize = 64 ∧
    (c3Freed.1 31).freeList.length = 64 := by
  refine ⟨by decide, by decide, by decide, by decide, by decide⟩

/-- C9: Allocate(0) returns none and leaves every component of the allocator
state (thread cache, central cache, page cache, OS) untouched, consuming no
OS call; Deallocate with zero size or a null address returns with all state
unchanged. -/
theorem zero_and_null_are_noops :
    (∀ ts cs pst sys, ThreadAllocate 0 ts cs pst sys = ⟨none, ts, cs, pst, sys, []⟩) ∧
    (∀ ptr ts cs pst, ThreadDeallocate ptr 0 ts cs pst = (ts, cs, pst)) ∧
    (∀ n ts cs pst, ThreadDeallocate 0 n ts cs pst = (ts, cs, pst)) := by
  refine ⟨fun ts cs pst sys => rfl, fun ptr ts cs pst => rfl, fun n ts cs pst => ?_⟩
  unfold ThreadDeallocate
  rw [if_pos (Or.inr rfl)]

/-- The flush walk severs exactly the first hops + 1 nodes whenever the list
is long enough for every next-pointer check to pass. -/
theorem severWalk_eq (l : List Nat) (k : Nat) (h : k < l.length) :
    severWalk l k = some (l.take (k + 1), l.drop (k + 1)) := by
  induction l generalizing k with
  | nil => simp at h
  | cons b rest ih =>
    cases k with
    | zero => simp [severWalk]
    | succ k' =>
      have h' : k' < rest.length := by simpa using h
      simp [severWalk, ih k' h']

/-- C6: deallocating into a cached class pushes the block; when the new
length times the class size exceeds MAX_FREE_BYTES_PER_LIST, exactly
length/2 blocks are severed off the head (the walk of length/2 - 1 hops
succeeds because the list really has `length` nodes), the remainder is
reinstalled with the length reduced by length/2, the severed chunk is handed
to CentralCache::Deallocate, and nextAllocateCount_ becomes
max(nextAllocateCount_/2, 4); when the threshold is not crossed, the push is
all that happens. -/
theorem threadDeallocate_flush
    (ptr n size index len : Nat) (t : TClass)
    (ts : ThreadState) (cs : CentralState) (pst : PageCacheState)
    (hptr : ptr ≠ 0) (hn : n ≠ 0)
    (hsize : size = GetSizeClass n)
    (hc : size ≤ MAX_CACHED_UNIT_SIZE)
    (hindex : index = GetIndex size)
    (ht : t = ts index)
    (hlen : len = t.freeListSize + 1)
    (hwf : t.freeListSize = t.freeList.length) :
    (MAX_FREE_BYTES_PER_LIST < len * size →
      ThreadDeallocate ptr n ts cs pst =
        (updT index ⟨(ptr :: t.freeList).drop (len / 2), len - len / 2,
            max (t.nextAllocateCount / 2) 4⟩ ts,
         CentralDeallocate ((ptr :: t.freeList).take (len / 2)) size cs pst)) ∧
    (¬ MAX_FREE_BYTES_PER_LIST < len * size →
      ThreadDeallocate ptr n ts cs pst =
        (updT index ⟨ptr :: t.freeList, len, t.nextAllocateCount⟩ ts, cs, pst)) := by
  subst hsize
  subst hindex
  subst ht
  subst hlen
  have hC : MAX_CACHED_UNIT_SIZE = 32768 := rfl
  have hM : MAX_FREE_BYTES_PER_LIST = 2097152 := rfl
  constructor <;> intro htrig
  · have hlen65 : 65 ≤ (ts (GetIndex (GetSizeClass n))).freeListSize + 1 := by
      by_contra hle
      have h1 : (ts (GetIndex (GetSizeClass n))).freeListSize + 1 ≤ 64 := by omega
      have h2 : ((ts (GetIndex (GetSizeClass n))).freeListSize + 1) * GetSizeClass n
          ≤ 64 * 32768 := Nat.mul_le_mul h1 (by omega)
      omega
    unfold ThreadDeallocate
    rw [if_neg (by simp [hn, hptr] : ¬ (n = 0 ∨ ptr = 0))]
    dsimp only
    rw [if_neg (by omega : ¬ MAX_CACHED_UNIT_SIZE < GetSizeClass n)]
    rw [if_pos htrig]
    have hklt : ((ts (GetIndex (GetSizeClass n))).freeListSize + 1) / 2 - 1
        < (ptr :: (ts (GetIndex (GetSizeClass n))).freeList).length := by
      simp only [List.length_cons, ← hwf]
      omega
    rw [severWalk_eq _ _ hklt,
      show ((ts (GetIndex (GetSizeClass n))).freeListSize + 1) / 2 - 1 + 1
        = ((ts (GetIndex (GetSizeClass n))).freeListSize + 1) / 2 from by omega]
  · unfold ThreadDeallocate
    rw [if_neg (by simp [hn, hptr] : ¬ (n = 0 ∨ ptr = 0))]
    dsimp only
    rw [if_neg (by omega : ¬ MAX_CACHED_UNIT_SIZE < GetSizeClass n)]
    rw [if_neg htrig]

/-- Witness for C6 at a concrete input: freeing one more 32 KiB block into a
class already holding 64 blocks (65 × 32768 > 2 MiB) severs 32 blocks to
CentralCache and keeps 33. -/
theorem threadDeallocate_flush_witness :
    MAX_FREE_BYTES_PER_LIST < 65 * GetSizeClass 32768 ∧
    ThreadDeallocate 8 32768 c6Thread centralState0 pageCacheState0 =
      (updT (GetIndex (GetSizeClass 32768))
        ⟨(8 :: (c6Thread (GetIndex (GetSizeClass 32768))).freeList).drop (65 / 2),
          65 - 65 / 2,
          max ((c6Thread (GetIndex (GetSizeClass 32768))).nextAllocateCount / 2) 4⟩
        c6Thread,
       CentralDeallocate
        ((8 :: (c6Thread (GetIndex (GetSizeClass 32768))).freeList).take (65 / 2))
        (GetSizeClass 32768) centralState0 pageCacheState0) :=
  ⟨by decide,
   (threadDeallocate_flush 8 32768 (GetSizeClass 32768)
      (GetIndex (GetSizeClass 32768)) 65
      (c6Thread (GetIndex (GetSizeClass 32768)))
      c6Thread centralState0 pageCacheState0
      (by decide) (by decide) rfl (by decide) rfl rfl (by decide) (by decide)).1
    (by decide)⟩

/-- With enough fuel, the bounded search loop of AllocatePage is the plain
first-nonempty scan. -/
theorem searchStore_eq_firstNonEmpty (fuel : Nat) (l : List (Nat × List MemSpan))
    (hf : l.length ≤ fuel) : searchStore fuel l = firstNonEmpty l := by
  induction l generalizing fuel with
  | nil => cases fuel <;> rfl
  | cons a rest ih =>
    cases fuel with
    | zero => simp at hf
    | succ f =>
      rw [show a = (a.1, a.2) from rfl]
      cases hs : a.2 with
      | nil =>
        simp only [searchStore, firstNonEmpty, hs]
        exact ih f (by simpa using hf)
      | cons sp tl => simp only [searchStore, firstNonEmpty, hs]

/-- On a key-sorted store, the lower-bound suffix is exactly the entries with
key at least the request. -/
theorem lowerB_eq_filter (pc : Nat) (store : List (Nat × List MemSpan))
    (hsort : store.Pairwise fun p q => p.1 < q.1) :
    alistLowerB pc store = store.filter fun p => decide (pc ≤ p.1) := by
  induction store with
  | nil => rfl
  | cons a rest ih =>
    rw [show a = (a.1, a.2) from rfl]
    by_cases hk : a.1 < pc
    · simp only [alistLowerB, if_pos hk, List.filter_cons]
      rw [if_neg (by simpa using hk)]
      exact ih hsort.tail
    · simp only [alistLowerB, if_neg hk, List.filter_cons]
      rw [if_pos (by simpa using Nat.le_of_not_lt hk)]
      congr 1
      symm
      apply List.filter_eq_self.mpr
      intro q hq
      have := List.rel_of_pairwise_cons hsort hq
      simp only [decide_eq_true_eq]
      omega

/-- A successful first-nonempty scan selects the head of some stored set. -/
theorem firstNonEmpty_mem {l : List (Nat × List MemSpan)} {k : Nat} {sp : MemSpan}
    (h : firstNonEmpty l = some (k, sp)) : ∃ s, (k, s) ∈ l ∧ sp ∈ s := by
  induction l with
  | nil => simp [firstNonEmpty] at h
  | cons a rest ih =>
    rw [show a = (a.1, a.2) from rfl] at h
    cases hs : a.2 with
    | nil =>
      rw [hs] at h
      simp only [firstNonEmpty] at h
      obtain ⟨s, hm, hsp⟩ := ih h
      exact ⟨s, List.mem_cons_of_mem _ hm, hsp⟩
    | cons sp' tl =>
      rw [hs] at h
      simp only [firstNonEmpty, Option.some_inj] at h
      obtain ⟨rfl, rfl⟩ := Prod.mk.inj h.symm
      refine ⟨sp :: tl, ?_, List.mem_cons_self _ _⟩
      rw [← hs]
      exact List.mem_cons_self _ _

/-- C7: PageCache::AllocatePage on a well-formed store (key-sorted, every
span in class k spanning exactly k pages, at most 1000 candidate classes).
If some stored class at least as large as the request has a run, the
smallest such class's least-address run is removed from both indices, its
prefix of exactly page_count pages is returned with no OS call, and the
remainder is reinserted into both indices keyed by its new page count and
start exactly when it is non-empty.  If no stored run fits, one mmap call
for max(PAGE_ALLOCATE_COUNT = 2048, page_count) pages is made: on failure
the state is unchanged and none is returned; on success the allocation is
recorded in pageVector_ for teardown, the requested prefix is returned, and
the remainder is reinserted into both indices. -/
theorem allocatePage_best_fit (pageCount : Nat) (st : PageCacheState) (sys : Sys)
    (hpc : 1 ≤ pageCount)
    (hsort : st.freePageStore.Pairwise fun p q => p.1 < q.1)
    (hsizes : ∀ p ∈ st.freePageStore, ∀ sp ∈ p.2, sp.size = p.1 * PAGE_SIZE)
    (hfuel : (alistLowerB pageCount st.freePageStore).length ≤ 1000) :
    (∀ k sp, bestFit pageCount st.freePageStore = some (k, sp) →
      AllocatePage pageCount st sys =
        (some ⟨sp.data, pageCount * PAGE_SIZE⟩,
         ⟨(if k = pageCount then storeApply k (spanSetErase sp) st.freePageStore
           else storeApply (k - pageCount)
             (spanSetInsert ⟨sp.data + pageCount * PAGE_SIZE, (k - pageCount) * PAGE_SIZE⟩)
             (storeApply k (spanSetErase sp) st.freePageStore)),
          (if k = pageCount then alistErase sp.data st.freePageMap
           else alistEmplace (sp.data + pageCount * PAGE_SIZE)
             ⟨sp.data + pageCount * PAGE_SIZE, (k - pageCount) * PAGE_SIZE⟩
             (alistErase sp.data st.freePageMap)),
          st.pageVector⟩, sys, [])) ∧
    (bestFit pageCount st.freePageStore = none →
      sys.mmapAddr sys.mmapCalls = none →
      AllocatePage pageCount st sys =
        (none, st, ⟨sys.mmapAddr, sys.mmapCalls + 1, sys.heapAddr, sys.heapCalls⟩,
         [none])) ∧
    (bestFit pageCount st.freePageStore = none →
      ∀ a, sys.mmapAddr sys.mmapCalls = some a →
      AllocatePage pageCount st sys =
        (some ⟨a, pageCount * PAGE_SIZE⟩,
         ⟨(if max PAGE_ALLOCATE_COUNT pageCount = pageCount then st.freePageStore
           else storeApply (max PAGE_ALLOCATE_COUNT pageCount - pageCount)
             (spanSetInsert ⟨a + pageCount * PAGE_SIZE,
               (max PAGE_ALLOCATE_COUNT pageCount - pageCount) * PAGE_SIZE⟩)
             st.freePageStore),
          (if max PAGE_ALLOCATE_COUNT pageCount = pageCount then st.freePageMap
           else alistEmplace (a + pageCount * PAGE_SIZE)
             ⟨a + pageCount * PAGE_SIZE,
              (max PAGE_ALLOCATE_COUNT pageCount - pageCount) * PAGE_SIZE⟩
             st.freePageMap),
          st.pageVector ++ [⟨a, PAGE_SIZE * max PAGE_ALLOCATE_COUNT pageCount⟩]⟩,
         ⟨sys.mmapAddr, sys.mmapCalls + 1, sys.heapAddr, sys.heapCalls⟩,
         [some a])) := by
  have hsearch : searchStore 1000 (alistLowerB pageCount st.freePageStore)
      = bestFit pageCount st.freePageStore := by
    rw [searchStore_eq_firstNonEmpty 1000 _ hfuel, lowerB_eq_filter _ _ hsort, bestFit]
  refine ⟨?_, ?_, ?_⟩
  · intro k sp hbf
    obtain ⟨s, hmem, hsp⟩ := firstNonEmpty_mem hbf
    have hkmem : (k, s) ∈ st.freePageStore := (List.mem_filter.mp hmem).1
    have hkge : pageCount ≤ k := by
      have := (List.mem_filter.mp hmem).2
      simpa using this
    have hsz : sp.size = k * PAGE_SIZE := hsizes (k, s) hkmem sp hsp
    unfold AllocatePage
    rw [if_neg (by omega : ¬ pageCount = 0), hsearch, hbf]
    dsimp only [MemSpan.sub2, MemSpan.sub1]
    rw [hsz]
    have hrest : k * PAGE_SIZE - pageCount * PAGE_SIZE = (k - pageCount) * PAGE_SIZE := by
      rw [Nat.sub_mul]
    by_cases hkeq : k = pageCount
    · subst hkeq
      rw [if_neg (by simp [PAGE_SIZE])]
      simp
    · have hne : k * PAGE_SIZE - pageCount * PAGE_SIZE ≠ 0 := by
        have : PAGE_SIZE = 4096 := rfl
        have hlt : pageCount < k := by omega
        have := (Nat.mul_lt_mul_right (show 0 < PAGE_SIZE from by decide)).mpr hlt
        omega
      rw [if_pos hne]
      simp only [if_neg hkeq, hrest]
      rw [show (k - pageCount) * PAGE_SIZE / PAGE_SIZE = k - pageCount from
        Nat.mul_div_cancel _ (by decide)]
      simp
  · intro hbf hmm
    unfold AllocatePage SystemAlloc
    rw [if_neg (by omega : ¬ pageCount = 0), hsearch, hbf, hmm]
    rfl
  · intro hbf a hmm
    unfold AllocatePage SystemAlloc
    rw [if_neg (by omega : ¬ pageCount = 0), hsearch, hbf, hmm]
    dsimp only [Option.map, MemSpan.sub2, MemSpan.sub1]
    have hrest : PAGE_SIZE * max PAGE_ALLOCATE_COUNT pageCount - pageCount * PAGE_SIZE
        = (max PAGE_ALLOCATE_COUNT pageCount - pageCount) * PAGE_SIZE := by
      rw [Nat.sub_mul, Nat.mul_comm]
    by_cases hmeq : max PAGE_ALLOCATE_COUNT pageCount = pageCount
    · have hz : PAGE_SIZE * max PAGE_ALLOCATE_COUNT pageCount - pageCount * PAGE_SIZE = 0 := by
        rw [hmeq]
        show 4096 * pageCount - pageCount * 4096 = 0
        omega
      rw [if_neg (by rw [hz]; simp)]
      simp [hmeq]
    · have hgt : pageCount < max PAGE_ALLOCATE_COUNT pageCount := by
        rcases Nat.le_total PAGE_ALLOCATE_COUNT pageCount with h | h
        · rw [Nat.max_eq_right h] at hmeq
          exact absurd rfl hmeq
        · rw [Nat.max_eq_left h] at hmeq ⊢
          omega
      have hne : PAGE_SIZE * max PAGE_ALLOCATE_COUNT pageCount - pageCount * PAGE_SIZE ≠ 0 := by
        have := (Nat.mul_lt_mul_right (show 0 < PAGE_SIZE from by decide)).mpr hgt
        have hc : PAGE_SIZE * max PAGE_ALLOCATE_COUNT pageCount
            = max PAGE_ALLOCATE_COUNT pageCount * PAGE_SIZE := Nat.mul_comm _ _
        omega
      rw [if_pos hne]
      simp only [if_neg hmeq, hrest]
      rw [show (max PAGE_ALLOCATE_COUNT pageCount - pageCount) * PAGE_SIZE / PAGE_SIZE
        = max PAGE_ALLOCATE_COUNT pageCount - pageCount from
        Nat.mul_div_cancel _ (by decide)]
      simp

/-- Witness for C7 at a concrete input: a store holding one 3-page run at
40960 serves a 1-page request by slicing off the first page and reindexing
the 2-page remainder. -/
theorem allocatePage_best_fit_witness :
    bestFit 1 [(3, [⟨40960, 12288⟩])] = some (3, ⟨40960, 12288⟩) ∧
    AllocatePage 1 ⟨[(3, [⟨40960, 12288⟩])], [(40960, ⟨40960, 12288⟩)], []⟩ sysAlways =
      (some ⟨40960, 1 * PAGE_SIZE⟩,
       ⟨storeApply (3 - 1) (spanSetInsert ⟨40960 + 1 * PAGE_SIZE, (3 - 1) * PAGE_SIZE⟩)
          (storeApply 3 (spanSetErase ⟨40960, 12288⟩) [(3, [⟨40960, 12288⟩])]),
        alistEmplace (40960 + 1 * PAGE_SIZE) ⟨40960 + 1 * PAGE_SIZE, (3 - 1) * PAGE_SIZE⟩
          (alistErase 40960 [(40960, ⟨40960, 12288⟩)]),
        []⟩, sysAlways, []) := by
  have h := allocatePage_best_fit 1 ⟨[(3, [⟨40960, 12288⟩])], [(40960, ⟨40960, 12288⟩)], []⟩
    sysAlways (by decide) (by decide)
    (by intro p hp sp hsp; fin_cases hp; fin_cases hsp; rfl)
    (by decide)
  exact ⟨by decide, h.1 3 ⟨40960, 12288⟩ (by decide)⟩

/-- AllocatePage makes no OS call when a stored run serves the request, and
otherwise makes exactly one; it returns none exactly when that one call
failed. -/
theorem allocatePage_log (pageCount : Nat) (st : PageCacheState) (sys : Sys)
    (hpc : pageCount ≠ 0) :
    ((AllocatePage pageCount st sys).1 = none ↔
      (AllocatePage pageCount st sys).2.2.2 = [none]) ∧
    (AllocatePage pageCount st sys).2.2.2.length ≤ 1 := by
  unfold AllocatePage
  rw [if_neg hpc]
  cases hs : searchStore 1000 (alistLowerB pageCount st.freePageStore) with
  | some kp =>
    obtain ⟨k, sp⟩ := kp
    dsimp only
    by_cases hr : (sp.sub1 (pageCount * PAGE_SIZE)).size ≠ 0
    · rw [if_pos hr]
      simp
    · rw [if_neg hr]
      simp
  | none =>
    unfold SystemAlloc
    cases hr : sys.mmapAddr sys.mmapCalls with
    | none => dsimp only [Option.map]; simp
    | some a =>
      dsimp only [Option.map]
      by_cases hz : ((⟨a, PAGE_SIZE * max PAGE_ALLOCATE_COUNT pageCount⟩ : MemSpan).sub1
          (pageCount * PAGE_SIZE)).size ≠ 0
      · rw [if_pos hz]
        simp
      · rw [if_neg hz]
        simp

/-- The group-to-page conversion of GetAllocatedPageCount never yields zero
pages (for any sane group counter). -/
theorem pages_pos (c : CClass) (h : c.nextGroupCount ≤ 2 ^ 40) :
    (GetAllocatedPageCount c).1 ≠ 0 := by
  unfold GetAllocatedPageCount AlignSize MAX_FREE_BYTES_PER_LIST
  dsimp only
  have h1 : 1 ≤ max c.nextGroupCount 1 := Nat.le_max_right _ _
  have h2 : max c.nextGroupCount 1 ≤ 2 ^ 40 := by
    rcases Nat.le_total c.nextGroupCount 1 with hc | hc
    · rw [Nat.max_eq_right hc]; norm_num
    · rw [Nat.max_eq_left hc]; exact h
  have hy : max c.nextGroupCount 1 * 2 ^ 21 + PAGE_SIZE - 1 < 2 ^ 64 := by
    have := Nat.mul_le_mul_right (2 ^ 21) h2
    have hp : PAGE_SIZE = 4096 := rfl
    have : (2 : Nat) ^ 40 * 2 ^ 21 = 2 ^ 61 := by norm_num
    omega
  have hmask : (2 : Nat) ^ 64 - PAGE_SIZE = 2 ^ 64 - 2 ^ 12 := rfl
  rw [hmask, land_mask_eq _ 12 hy (by norm_num)]
  have hps : PAGE_SIZE = 2 ^ 12 := rfl
  rw [show ∀ q : Nat, q * 2 ^ 12 / PAGE_SIZE = q from fun q => Nat.mul_div_cancel _ (by decide)]
  have hge : 2 ^ 12 ≤ max c.nextGroupCount 1 * 2 ^ 21 + PAGE_SIZE - 1 := by
    have := Nat.mul_le_mul_right (2 ^ 21) h1
    have hp : PAGE_SIZE = 4096 := rfl
    omega
  have := (Nat.one_le_div_iff (show 0 < 2 ^ 12 by norm_num)).mpr hge
  omega

/-- The fast-path pop loop only ever extends its accumulator. -/
theorem popLoop_acc (k : Nat) (c : CClass) (acc : List Nat) :
    ∃ l, (popLoop k c acc).1 = l ++ acc := by
  induction k generalizing c acc with
  | zero => exact ⟨[], rfl⟩
  | succ k' ih =>
    cases hfl : c.freeList with
    | nil => exact ⟨[], by simp [popLoop, hfl]⟩
    | cons b rest =>
      obtain ⟨l, hl⟩ := ih ⟨rest, c.freeListSize - 1,
        RecordAllocatedMemorySpan b c.pageMap, c.nextGroupCount⟩ (b :: acc)
      exact ⟨l ++ [b], by simp [popLoop, hfl, hl]⟩

/-- With a non-empty free list and a positive batch count, the pop loop
returns a non-empty chain. -/
theorem popLoop_ne_nil (k : Nat) (c : CClass) (hk : k ≠ 0) (hfl : c.freeList ≠ []) :
    (popLoop k c []).1 ≠ [] := by
  cases k with
  | zero => exact absurd rfl hk
  | succ k' =>
    cases hfl' : c.freeList with
    | nil => exact absurd hfl' hfl
    | cons b rest =>
      obtain ⟨l, hl⟩ := popLoop_acc k' ⟨rest, c.freeListSize - 1,
        RecordAllocatedMemorySpan b c.pageMap, c.nextGroupCount⟩ [b]
      simp [popLoop, hfl', hl]

/-- The slow-path split loop only ever extends its accumulator. -/
theorem splitAllocLoop_acc (n pos u : Nat) (acc : List Nat) (r : PageSpanRec) :
    ∃ l, (splitAllocLoop n pos u acc r).1 = l ++ acc := by
  induction n generalizing pos acc r with
  | zero => exact ⟨[], rfl⟩
  | succ n' ih =>
    obtain ⟨l, hl⟩ := ih (pos + u) (pos :: acc) r.alloc
    exact ⟨l ++ [pos], by simp [splitAllocLoop, hl]⟩

/-- A positive batch count makes the split loop's chain non-empty. -/
theorem splitAllocLoop_ne_nil (n pos u : Nat) (r : PageSpanRec) (hn : n ≠ 0) :
    (splitAllocLoop n pos u [] r).1 ≠ [] := by
  cases n with
  | zero => exact absurd rfl hn
  | succ n' =>
    obtain ⟨l, hl⟩ := splitAllocLoop_acc n' (pos + u) u [pos] r.alloc
    simp [splitAllocLoop, hl]

/-- ComputeAllocateCount returns a positive batch count. -/
theorem computeAllocateCount_pos (size : Nat) (ts : ThreadState) :
    (ComputeAllocateCount size ts).1 ≠ 0 := by
  unfold ComputeAllocateCount
  dsimp only
  split
  · simp
  · dsimp only
    have := Nat.le_max_right ((ts (GetIndex size)).nextAllocateCount) 16
    omega

/-- CentralCache::Allocate makes at most one OS call, fails exactly when
that call failed, and a successful result is a non-empty chain. -/
theorem centralAllocate_log (memorySize blockCount : Nat) (cs : CentralState)
    (pst : PageCacheState) (sys : Sys)
    (hm : memorySize ≠ 0) (hb : blockCount ≠ 0)
    (hwf : (cs (GetIndex memorySize)).freeListSize
      = (cs (GetIndex memorySize)).freeList.length)
    (hgc : (cs (GetIndex memorySize)).nextGroupCount ≤ 2 ^ 40) :
    ((CentralAllocate memorySize blockCount cs pst sys).1 = none ↔
      (CentralAllocate memorySize blockCount cs pst sys).2.2.2.2 = [none]) ∧
    (CentralAllocate memorySize blockCount cs pst sys).2.2.2.2.length ≤ 1 ∧
    (∀ chain, (CentralAllocate memorySize blockCount cs pst sys).1 = some chain →
      chain ≠ []) := by
  unfold CentralAllocate
  rw [if_neg (by simp [hm, hb] : ¬ (memorySize = 0 ∨ blockCount = 0))]
  by_cases hbig : MAX_CACHED_UNIT_SIZE < memorySize
  · rw [if_pos hbig]
    unfold AllocateUnit
    cases hr : sys.heapAddr sys.heapCalls with
    | none => dsimp only [Option.map]; simp
    | some a =>
      dsimp only [Option.map]
      refine ⟨by simp, by simp, ?_⟩
      intro chain hc
      simp only [Option.some_inj] at hc
      simp [← hc]
  · rw [if_neg hbig]
    dsimp only
    by_cases hlt : (cs (GetIndex memorySize)).freeListSize < blockCount
    · rw [if_pos hlt]
      have hpages := pages_pos (cs (GetIndex memorySize)) hgc
      have hl := allocatePage_log (GetAllocatedPageCount (cs (GetIndex memorySize))).1
        pst sys hpages
      rcases happ : AllocatePage (GetAllocatedPageCount (cs (GetIndex memorySize))).1
          pst sys with ⟨res, pst', sys', log⟩
      rw [happ] at hl
      dsimp only at hl
      cases res with
      | none =>
        dsimp only
        refine ⟨?_, ?_, by simp⟩
        · simpa using hl.1
        · simpa using hl.2
      | some memory =>
        dsimp only
        refine ⟨⟨fun h0 => Option.noConfusion h0,
          fun h0 => Option.noConfusion (hl.1.mpr h0)⟩, hl.2, ?_⟩
        intro chain hcc
        have he := Option.some.inj hcc
        rw [← he]
        exact splitAllocLoop_ne_nil _ _ _ _ hb
    · rw [if_neg hlt]
      dsimp only
      refine ⟨by simp, by simp, ?_⟩
      intro chain hc
      simp only [Option.some_inj] at hc
      rw [← hc]
      refine popLoop_ne_nil _ _ hb ?_
      intro hnil
      rw [hwf, hnil] at hlt
      simp at hlt
      omega

/-- FetchFromCentralCache inherits the one-call error contract. -/
theorem fetch_log (memorySize : Nat) (ts : ThreadState) (cs : CentralState)
    (pst : PageCacheState) (sys : Sys)
    (hm : memorySize ≠ 0)
    (hwf : (cs (GetIndex memorySize)).freeListSize
      = (cs (GetIndex memorySize)).freeList.length)
    (hgc : (cs (GetIndex memorySize)).nextGroupCount ≤ 2 ^ 40) :
    ((FetchFromCentralCache memorySize ts cs pst sys).res = none ↔
      (FetchFromCentralCache memorySize ts cs pst sys).log = [none]) ∧
    (FetchFromCentralCache memorySize ts cs pst sys).log.length ≤ 1 := by
  unfold FetchFromCentralCache
  dsimp only
  have hc := centralAllocate_log memorySize (ComputeAllocateCount memorySize ts).1
    cs pst sys hm (computeAllocateCount_pos memorySize ts) hwf hgc
  cases hca : (CentralAllocate memorySize (ComputeAllocateCount memorySize ts).1
      cs pst sys).1 with
  | none =>
    rw [hca] at hc
    dsimp only
    exact ⟨⟨fun _ => hc.1.mp rfl, fun _ => rfl⟩, hc.2.1⟩
  | some chain =>
    rw [hca] at hc
    have hne := hc.2.2 chain rfl
    cases chain with
    | nil => exact absurd rfl hne
    | cons b tl =>
      dsimp only
      refine ⟨?_, hc.2.1⟩
      constructor
      · intro h
        exact Option.noConfusion h
      · intro h
        exact Option.noConfusion (hc.1.mpr h)

/-- C4: for every non-zero request size, Allocate consults the OS at most
once (no retry), returns none exactly when that single consultation failed,
and SystemAlloc itself yields none exactly when the page-mapping primitive
does. -/
theorem allocate_none_iff_os_refusal (n : Nat) (ts : ThreadState)
    (cs : CentralState) (pst : PageCacheState) (sys : Sys)
    (hn : n ≠ 0)
    (hwf : ∀ i, (cs i).freeListSize = (cs i).freeList.length)
    (hgc : ∀ i, (cs i).nextGroupCount ≤ 2 ^ 40) :
    ((ThreadAllocate n ts cs pst sys).res = none ↔
      (ThreadAllocate n ts cs pst sys).log = [none]) ∧
    (ThreadAllocate n ts cs pst sys).log.length ≤ 1 ∧
    (∀ pc, (SystemAlloc pc sys).1 = none ↔ sys.mmapAddr sys.mmapCalls = none) := by
  have hsa : ∀ pc, (SystemAlloc pc sys).1 = none ↔ sys.mmapAddr sys.mmapCalls = none := by
    intro pc
    unfold SystemAlloc
    cases hr : sys.mmapAddr sys.mmapCalls <;> simp
  have hgsc : GetSizeClass n ≠ 0 := by
    have h1 := le_getSizeClass n
    have h2 : 1 ≤ n := by omega
    omega
  unfold ThreadAllocate
  rw [if_neg hn]
  dsimp only
  by_cases hbig : MAX_CACHED_UNIT_SIZE < GetSizeClass n
  · rw [if_pos hbig]
    have := fetch_log (GetSizeClass n) ts cs pst sys hgsc
      (hwf (GetIndex (GetSizeClass n))) (hgc (GetIndex (GetSizeClass n)))
    exact ⟨this.1, this.2, hsa⟩
  · rw [if_neg hbig]
    cases hfl : (ts (GetIndex (GetSizeClass n))).freeList with
    | cons b rest => exact ⟨by simp, by simp, hsa⟩
    | nil =>
      have := fetch_log (GetSizeClass n) ts cs pst sys hgsc
        (hwf (GetIndex (GetSizeClass n))) (hgc (GetIndex (GetSizeClass n)))
      exact ⟨this.1, this.2, hsa⟩

/-- Witness for C4 at a concrete input: a fresh allocator asking for 32 KiB
from an OS that grants the mmap; the allocation succeeds with exactly one
recorded OS answer. -/
theorem allocate_none_iff_os_refusal_witness :
    ((ThreadAllocate 32768 threadState0 centralState0 pageCacheState0 sysAlways).res = none ↔
      (ThreadAllocate 32768 threadState0 centralState0 pageCacheState0 sysAlways).log = [none]) ∧
    (ThreadAllocate 32768 threadState0 centralState0 pageCacheState0 sysAlways).log.length ≤ 1 ∧
    (∀ pc, (SystemAlloc pc sysAlways).1 = none ↔
      sysAlways.mmapAddr sysAlways.mmapCalls = none) :=
  allocate_none_iff_os_refusal 32768 threadState0 centralState0 pageCacheState0 sysAlways
    (by decide) (fun i => rfl) (fun i => Nat.zero_le _)

/-- A whole number of pages is a multiple of 8 bytes. -/
theorem mul_page_mod8 (pc : Nat) : pc * PAGE_SIZE % 8 = 0 := by
  obtain ⟨q, hq⟩ : (8 : Nat) ∣ pc * PAGE_SIZE :=
    (show (8 : Nat) ∣ PAGE_SIZE by decide).mul_left pc
  omega

/-- Set insertion only adds the announced element. -/
theorem mem_spanSetInsert {x : MemSpan} {s : List MemSpan} {sp : MemSpan}
    (h : sp ∈ spanSetInsert x s) : sp = x ∨ sp ∈ s := by
  induction s with
  | nil =>
    simp only [spanSetInsert, List.mem_singleton] at h
    exact Or.inl h
  | cons a rest ih =>
    by_cases h1 : x.data < a.data
    · simp only [spanSetInsert, if_pos h1] at h
      rcases List.mem_cons.mp h with rfl | h' <;> simp [*]
    · by_cases h2 : x.data = a.data
      · simp only [spanSetInsert, if_neg h1, if_pos h2] at h
        exact Or.inr h
      · simp only [spanSetInsert, if_neg h1, if_neg h2] at h
        rcases List.mem_cons.mp h with rfl | h'
        · simp
        · rcases ih h' with h'' | h'' <;> simp [h'']

/-- Set erasure only removes elements. -/
theorem mem_spanSetErase {x : MemSpan} {s : List MemSpan} {sp : MemSpan}
    (h : sp ∈ spanSetErase x s) : sp ∈ s := by
  induction s with
  | nil => simp [spanSetErase] at h
  | cons a rest ih =>
    by_cases h1 : a.data = x.data
    · simp only [spanSetErase, if_pos h1] at h
      exact List.mem_cons_of_mem _ h
    · simp only [spanSetErase, if_neg h1] at h
      rcases List.mem_cons.mp h with rfl | h'
      · exact List.mem_cons_self _ _
      · exact List.mem_cons_of_mem _ (ih h')

/-- Updating one set of the store preserves "every stored span is 8-aligned"
whenever the update function does. -/
theorem storeApply_aligned {k : Nat} {f : List MemSpan → List MemSpan}
    {store : List (Nat × List MemSpan)}
    (hstore : ∀ p ∈ store, ∀ sp ∈ p.2, sp.data % 8 = 0)
    (hf : ∀ s, (∀ sp ∈ s, sp.data % 8 = 0) → ∀ sp ∈ f s, sp.data % 8 = 0) :
    ∀ p ∈ storeApply k f store, ∀ sp ∈ p.2, sp.data % 8 = 0 := by
  induction store with
  | nil =>
    intro p hp
    simp only [storeApply, List.mem_singleton] at hp
    subst hp
    exact hf [] (fun sp hsp => absurd hsp (List.not_mem_nil sp))
  | cons a rest ih =>
    intro p hp
    rw [show a = (a.1, a.2) from rfl] at hp
    by_cases h1 : k < a.1
    · simp only [storeApply, if_pos h1] at hp
      rcases List.mem_cons.mp hp with rfl | hp'
      · exact hf [] (fun sp hsp => absurd hsp (List.not_mem_nil sp))
      · exact hstore p hp'
    · by_cases h2 : k = a.1
      · simp only [storeApply, if_neg h1, if_pos h2] at hp
        rcases List.mem_cons.mp hp with rfl | hp'
        · exact hf a.2 (hstore a (List.mem_cons_self _ _))
        · exact hstore p (List.mem_cons_of_mem _ hp')
      · simp only [storeApply, if_neg h1, if_neg h2] at hp
        rcases List.mem_cons.mp hp with rfl | hp'
        · exact hstore a (List.mem_cons_self _ _)
        · exact ih (fun q hq => hstore q (List.mem_cons_of_mem _ hq)) p hp'

/-- Whatever the search loop returns was stored in the list it searched. -/
theorem searchStore_mem {fuel : Nat} {l : List (Nat × List MemSpan)}
    {k : Nat} {sp : MemSpan} (h : searchStore fuel l = some (k, sp)) :
    ∃ s, (k, s) ∈ l ∧ sp ∈ s := by
  induction l generalizing fuel with
  | nil => simp [searchStore] at h
  | cons a rest ih =>
    obtain ⟨k', s⟩ := a
    cases fuel with
    | zero => simp [searchStore] at h
    | succ f =>
      cases s with
      | nil =>
        simp only [searchStore] at h
        obtain ⟨s', hs', hsp⟩ := ih h
        exact ⟨s', List.mem_cons_of_mem _ hs', hsp⟩
      | cons sp0 tl =>
        simp only [searchStore, Option.some_inj, Prod.mk.injEq] at h
        exact ⟨sp0 :: tl, by rw [h.1]; exact List.mem_cons_self _ _,
          by rw [← h.2]; exact List.mem_cons_self _ _⟩

/-- lower_bound yields a suffix: its entries come from the original list. -/
theorem alistLowerB_subset {α : Type} {k : Nat} {l : List (Nat × α)} {q : Nat × α}
    (h : q ∈ alistLowerB k l) : q ∈ l := by
  induction l with
  | nil => simp [alistLowerB] at h
  | cons a rest ih =>
    rw [show a = (a.1, a.2) from rfl] at h
    by_cases h1 : a.1 < k
    · simp only [alistLowerB, if_pos h1] at h
      exact List.mem_cons_of_mem _ (ih h)
    · simp only [alistLowerB, if_neg h1] at h
      exact h

/-- PageCache::AllocatePage hands out only 8-aligned spans and preserves the
alignment of both of its indices, granted an OS that returns 8-aligned
addresses. -/
theorem allocatePage_aligned (pageCount : Nat) (st : PageCacheState) (sys : Sys)
    (hstore : ∀ p ∈ st.freePageStore, ∀ sp ∈ p.2, sp.data % 8 = 0)
    (hmap : ∀ p ∈ st.freePageMap, p.2.data % 8 = 0)
    (hsys : ∀ i a, sys.mmapAddr i = some a → a % 8 = 0) :
    (∀ m, (AllocatePage pageCount st sys).1 = some m → m.data % 8 = 0) ∧
    (∀ p ∈ (AllocatePage pageCount st sys).2.1.freePageStore,
      ∀ sp ∈ p.2, sp.data % 8 = 0) ∧
    (∀ p ∈ (AllocatePage pageCount st sys).2.1.freePageMap, p.2.data % 8 = 0) := by
  unfold AllocatePage
  by_cases hpc : pageCount = 0
  · rw [if_pos hpc]
    exact ⟨fun m hm => Option.noConfusion hm, hstore, hmap⟩
  rw [if_neg hpc]
  cases hs : searchStore 1000 (alistLowerB pageCount st.freePageStore) with
  | some kp =>
    obtain ⟨k, freeSpan⟩ := kp
    dsimp only
    obtain ⟨s, hsl, hsp⟩ := searchStore_mem hs
    have hfs : freeSpan.data % 8 = 0 :=
      hstore (k, s) (alistLowerB_subset hsl) freeSpan hsp
    have hstore1 : ∀ p ∈ storeApply k (spanSetErase freeSpan) st.freePageStore,
        ∀ sp ∈ p.2, sp.data % 8 = 0 :=
      storeApply_aligned hstore
        (fun s' hs' sp hsp' => hs' sp (mem_spanSetErase hsp'))
    have hmap1 : ∀ p ∈ alistErase freeSpan.data st.freePageMap, p.2.data % 8 = 0 :=
      fun p hp => hmap p (alistErase_mem hp)
    have hrest : (freeSpan.sub1 (pageCount * PAGE_SIZE)).data % 8 = 0 := by
      show (freeSpan.data + pageCount * PAGE_SIZE) % 8 = 0
      have := mul_page_mod8 pageCount
      omega
    by_cases hr : (freeSpan.sub1 (pageCount * PAGE_SIZE)).size ≠ 0
    · rw [if_pos hr]
      refine ⟨?_, ?_, ?_⟩
      · intro m hm
        have he := Option.some.inj hm
        rw [← he]
        show (freeSpan.data + 0) % 8 = 0
        omega
      · exact storeApply_aligned hstore1
          (fun s' hs' sp hsp' => (mem_spanSetInsert hsp').elim
            (fun heq => by rw [heq]; exact hrest) (fun hm' => hs' sp hm'))
      · intro p hp
        rcases alistEmplace_mem hp with rfl | hp'
        · exact hrest
        · exact hmap1 p hp'
    · rw [if_neg hr]
      refine ⟨?_, hstore1, hmap1⟩
      intro m hm
      have he := Option.some.inj hm
      rw [← he]
      show (freeSpan.data + 0) % 8 = 0
      omega
  | none =>
    unfold SystemAlloc
    cases hr : sys.mmapAddr sys.mmapCalls with
    | none =>
      dsimp only [Option.map]
      exact ⟨fun m hm => Option.noConfusion hm, hstore, hmap⟩
    | some a =>
      dsimp only [Option.map]
      have ha : a % 8 = 0 := hsys sys.mmapCalls a hr
      have hrest : ((⟨a, PAGE_SIZE * max PAGE_ALLOCATE_COUNT pageCount⟩ : MemSpan).sub1
          (pageCount * PAGE_SIZE)).data % 8 = 0 := by
        show (a + pageCount * PAGE_SIZE) % 8 = 0
        have := mul_page_mod8 pageCount
        omega
      by_cases hz : ((⟨a, PAGE_SIZE * max PAGE_ALLOCATE_COUNT pageCount⟩ : MemSpan).sub1
          (pageCount * PAGE_SIZE)).size ≠ 0
      · rw [if_pos hz]
        refine ⟨?_, ?_, ?_⟩
        · intro m hm
          have he := Option.some.inj hm
          rw [← he]
          show (a + 0) % 8 = 0
          omega
        · exact storeApply_aligned hstore
            (fun s' hs' sp hsp' => (mem_spanSetInsert hsp').elim
              (fun heq => by rw [heq]; exact hrest) (fun hm' => hs' sp hm'))
        · intro p hp
          rcases alistEmplace_mem hp with rfl | hp'
          · exact hrest
          · exact hmap p hp'
      · rw [if_neg hz]
        refine ⟨?_, hstore, hmap⟩
        intro m hm
        have he := Option.some.inj hm
        rw [← he]
        show (a + 0) % 8 = 0
        omega

/-- The fast-path pop loop draws its chain from the accumulator and the class
free list, and leaves a free list drawn from the original one. -/
theorem popLoop_subsets (k : Nat) (c : CClass) (acc : List Nat) :
    (∀ b ∈ (popLoop k c acc).1, b ∈ acc ∨ b ∈ c.freeList) ∧
    (∀ b ∈ (popLoop k c acc).2.freeList, b ∈ c.freeList) := by
  induction k generalizing c acc with
  | zero => exact ⟨fun b hb => Or.inl hb, fun b hb => hb⟩
  | succ k' ih =>
    cases hfl : c.freeList with
    | nil =>
      constructor
      · intro b hb
        simp only [popLoop, hfl] at hb
        exact Or.inl hb
      · intro b hb
        simp only [popLoop, hfl] at hb
        simp at hb
    | cons b0 rest =>
      have ih' := ih ⟨rest, c.freeListSize - 1, RecordAllocatedMemorySpan b0 c.pageMap,
        c.nextGroupCount⟩ (b0 :: acc)
      constructor
      · intro b hb
        simp only [popLoop, hfl] at hb
        rcases ih'.1 b hb with hm | hm
        · rcases List.mem_cons.mp hm with rfl | hm'
          · exact Or.inr (List.mem_cons_self _ _)
          · exact Or.inl hm'
        · exact Or.inr (List.mem_cons_of_mem _ hm)
      · intro b hb
        simp only [popLoop, hfl] at hb
        exact List.mem_cons_of_mem _ (ih'.2 b hb)

/-- The slow-path split loop carves blocks at aligned offsets: every address
it produces, and its final cursor, are 8-aligned. -/
theorem splitAllocLoop_aligned (n : Nat) : ∀ pos u acc r, pos % 8 = 0 →
    u % 8 = 0 → (∀ b ∈ acc, b % 8 = 0) →
    (∀ b ∈ (splitAllocLoop n pos u acc r).1, b % 8 = 0) ∧
    (splitAllocLoop n pos u acc r).2.1 % 8 = 0 := by
  induction n with
  | zero => exact fun pos u acc r hp hu hacc => ⟨hacc, hp⟩
  | succ n' ih =>
    intro pos u acc r hp hu hacc
    simp only [splitAllocLoop]
    exact ih (pos + u) u (pos :: acc) r.alloc (by omega) hu
      (fun b hb => (List.mem_cons.mp hb).elim (fun he => by rw [he]; exact hp) (hacc b))

/-- The remainder loop prepends only aligned addresses onto the free list. -/
theorem restLoop_aligned (n : Nat) : ∀ pos u fl len, pos % 8 = 0 → u % 8 = 0 →
    (∀ b ∈ fl, b % 8 = 0) → ∀ b ∈ (restLoop n pos u fl len).1, b % 8 = 0 := by
  induction n with
  | zero => exact fun pos u fl len hp hu hfl => hfl
  | succ n' ih =>
    intro pos u fl len hp hu hfl
    simp only [restLoop]
    exact ih (pos + u) u (pos :: fl) (len + 1) (by omega) hu
      (fun b hb => (List.mem_cons.mp hb).elim (fun he => by rw [he]; exact hp) (hfl b))

/-- Writing one aligned class slot preserves the alignment of all
CentralCache free lists. -/
theorem updC_freeList_aligned {idx : Nat} {c' : CClass} {cs : CentralState}
    (hcs : ∀ i, ∀ b ∈ (cs i).freeList, b % 8 = 0)
    (hc' : ∀ b ∈ c'.freeList, b % 8 = 0) :
    ∀ i, ∀ b ∈ ((updC idx c' cs) i).freeList, b % 8 = 0 := by
  intro i b hb
  unfold updC at hb
  by_cases hi : i = idx
  · rw [if_pos hi] at hb
    exact hc' b hb
  · rw [if_neg hi] at hb
    exact hcs i b hb

/-- A cached size class (one at or below the 32 KiB threshold) is a multiple
of 8: every tier of GetSizeClass rounds to a multiple of 8, 128, 512 or
2048. -/
theorem getSizeClass_mod8 (n : Nat) (h : GetSizeClass n ≤ MAX_CACHED_UNIT_SIZE) :
    GetSizeClass n % 8 = 0 := by
  by_cases h0 : n = 0
  · rw [h0]
    decide
  by_cases hbig : 32768 < n
  · rw [gsc_big n hbig] at h
    have hmx : MAX_CACHED_UNIT_SIZE = 32768 := by decide
    omega
  by_cases h128 : n ≤ 128
  · rw [gsc_r1 n (by omega) h128]
    exact Nat.mul_mod_left _ 8
  by_cases h1024 : n ≤ 1024
  · rw [gsc_r2 n (by omega) h1024]
    have he : (n + 127) / 128 * 128 = (n + 127) / 128 * 16 * 8 := by ring
    rw [he]
    exact Nat.mul_mod_left _ 8
  by_cases h8192 : n ≤ 8192
  · rw [gsc_r3 n (by omega) h8192]
    have he : (n + 511) / 512 * 512 = (n + 511) / 512 * 64 * 8 := by ring
    rw [he]
    exact Nat.mul_mod_left _ 8
  · rw [gsc_r4 n (by omega) (by omega)]
    have he : (n + 2047) / 2048 * 2048 = (n + 2047) / 2048 * 256 * 8 := by ring
    rw [he]
    exact Nat.mul_mod_left _ 8

/-- CentralCache::Allocate hands out only 8-aligned block addresses and
preserves alignment of the class free lists and the PageCache indices. -/
theorem centralAllocate_aligned (memorySize blockCount : Nat) (cs : CentralState)
    (pst : PageCacheState) (sys : Sys)
    (hm8 : memorySize ≤ MAX_CACHED_UNIT_SIZE → memorySize % 8 = 0)
    (hcs : ∀ i, ∀ b ∈ (cs i).freeList, b % 8 = 0)
    (hstore : ∀ p ∈ pst.freePageStore, ∀ sp ∈ p.2, sp.data % 8 = 0)
    (hmap : ∀ p ∈ pst.freePageMap, p.2.data % 8 = 0)
    (hmm : ∀ i a, sys.mmapAddr i = some a → a % 8 = 0)
    (hhp : ∀ i a, sys.heapAddr i = some a → a % 8 = 0) :
    (∀ chain, (CentralAllocate memorySize blockCount cs pst sys).1 = some chain →
      ∀ b ∈ chain, b % 8 = 0) ∧
    (∀ i, ∀ b ∈ ((CentralAllocate memorySize blockCount cs pst sys).2.1 i).freeList,
      b % 8 = 0) ∧
    (∀ p ∈ (CentralAllocate memorySize blockCount cs pst sys).2.2.1.freePageStore,
      ∀ sp ∈ p.2, sp.data % 8 = 0) ∧
    (∀ p ∈ (CentralAllocate memorySize blockCount cs pst sys).2.2.1.freePageMap,
      p.2.data % 8 = 0) := by
  unfold CentralAllocate
  by_cases hz : memorySize = 0 ∨ blockCount = 0
  · rw [if_pos hz]
    exact ⟨fun chain hc => Option.noConfusion hc, hcs, hstore, hmap⟩
  rw [if_neg hz]
  by_cases hbig : MAX_CACHED_UNIT_SIZE < memorySize
  · rw [if_pos hbig]
    unfold AllocateUnit
    cases hr : sys.heapAddr sys.heapCalls with
    | none =>
      dsimp only [Option.map]
      exact ⟨fun chain hc => Option.noConfusion hc, hcs, hstore, hmap⟩
    | some a =>
      dsimp only [Option.map]
      refine ⟨?_, hcs, hstore, hmap⟩
      intro chain hc b hb
      have he := Option.some.inj hc
      rw [← he] at hb
      simp only [List.mem_singleton] at hb
      rw [hb]
      exact hhp sys.heapCalls a hr
  · rw [if_neg hbig]
    dsimp only
    have hm8' : memorySize % 8 = 0 := hm8 (by omega)
    by_cases hlt : (cs (GetIndex memorySize)).freeListSize < blockCount
    · rw [if_pos hlt]
      have hap := allocatePage_aligned
        (GetAllocatedPageCount (cs (GetIndex memorySize))).1 pst sys hstore hmap hmm
      rcases happ : AllocatePage (GetAllocatedPageCount (cs (GetIndex memorySize))).1
          pst sys with ⟨res, pst', sys', log⟩
      rw [happ] at hap
      dsimp only at hap
      cases res with
      | none =>
        dsimp only
        exact ⟨fun chain hc => Option.noConfusion hc,
          updC_freeList_aligned hcs (hcs (GetIndex memorySize)), hap.2.1, hap.2.2⟩
      | some memory =>
        dsimp only
        have hmd : memory.data % 8 = 0 := hap.1 memory rfl
        have hsplit := splitAllocLoop_aligned blockCount memory.data memorySize []
          ⟨memory.data, memory.size, memorySize, 0⟩ hmd hm8'
          (fun b hb => absurd hb (List.not_mem_nil b))
        refine ⟨?_, ?_, hap.2.1, hap.2.2⟩
        · intro chain hc
          have he := Option.some.inj hc
          rw [← he]
          exact hsplit.1
        · apply updC_freeList_aligned hcs
          intro b hb
          exact restLoop_aligned (memory.size / memorySize - blockCount)
            (splitAllocLoop blockCount memory.data memorySize []
              ⟨memory.data, memory.size, memorySize, 0⟩).2.1 memorySize
            ((GetAllocatedPageCount (cs (GetIndex memorySize))).2).freeList
            ((GetAllocatedPageCount (cs (GetIndex memorySize))).2).freeListSize
            hsplit.2 hm8' (hcs (GetIndex memorySize)) b hb
    · rw [if_neg hlt]
      dsimp only
      have hpop := popLoop_subsets blockCount (cs (GetIndex memorySize)) []
      refine ⟨?_, ?_, hstore, hmap⟩
      · intro chain hc b hb
        have he := Option.some.inj hc
        rw [← he] at hb
        rcases hpop.1 b hb with h' | h'
        · exact absurd h' (List.not_mem_nil b)
        · exact hcs _ b h'
      · exact updC_freeList_aligned hcs (fun b hb => hcs _ b (hpop.2 b hb))

/-- ComputeAllocateCount never touches a class free list. -/
theorem computeAllocateCount_freeList (size : Nat) (ts : ThreadState) (i : Nat) :
    ((ComputeAllocateCount size ts).2 i).freeList = (ts i).freeList := by
  unfold ComputeAllocateCount
  dsimp only
  split
  · rfl
  · dsimp only
    unfold updT
    by_cases hi : i = GetIndex size
    · rw [if_pos hi, hi]
    · rw [if_neg hi]

/-- FetchFromCentralCache returns an 8-aligned address and preserves the
alignment of all cache levels. -/
theorem fetch_aligned (memorySize : Nat) (ts : ThreadState) (cs : CentralState)
    (pst : PageCacheState) (sys : Sys)
    (hm8 : memorySize ≤ MAX_CACHED_UNIT_SIZE → memorySize % 8 = 0)
    (hts : ∀ i, ∀ b ∈ (ts i).freeList, b % 8 = 0)
    (hcs : ∀ i, ∀ b ∈ (cs i).freeList, b % 8 = 0)
    (hstore : ∀ p ∈ pst.freePageStore, ∀ sp ∈ p.2, sp.data % 8 = 0)
    (hmap : ∀ p ∈ pst.freePageMap, p.2.data % 8 = 0)
    (hmm : ∀ i a, sys.mmapAddr i = some a → a % 8 = 0)
    (hhp : ∀ i a, sys.heapAddr i = some a → a % 8 = 0) :
    (∀ a, (FetchFromCentralCache memorySize ts cs pst sys).res = some a → a % 8 = 0) ∧
    (∀ i, ∀ b ∈ ((FetchFromCentralCache memorySize ts cs pst sys).ts i).freeList,
      b % 8 = 0) ∧
    (∀ i, ∀ b ∈ ((FetchFromCentralCache memorySize ts cs pst sys).cs i).freeList,
      b % 8 = 0) ∧
    (∀ p ∈ (FetchFromCentralCache memorySize ts cs pst sys).pst.freePageStore,
      ∀ sp ∈ p.2, sp.data % 8 = 0) ∧
    (∀ p ∈ (FetchFromCentralCache memorySize ts cs pst sys).pst.freePageMap,
      p.2.data % 8 = 0) := by
  unfold FetchFromCentralCache
  dsimp only
  have hc := centralAllocate_aligned memorySize (ComputeAllocateCount memorySize ts).1
    cs pst sys hm8 hcs hstore hmap hmm hhp
  have hbc := computeAllocateCount_freeList memorySize ts
  cases hca : (CentralAllocate memorySize (ComputeAllocateCount memorySize ts).1
      cs pst sys).1 with
  | none =>
    rw [hca] at hc
    dsimp only
    refine ⟨fun a ha => Option.noConfusion ha, ?_, hc.2.1, hc.2.2.1, hc.2.2.2⟩
    intro i b hb
    rw [hbc i] at hb
    exact hts i b hb
  | some chain =>
    rw [hca] at hc
    have hchain : ∀ b ∈ chain, b % 8 = 0 := hc.1 chain rfl
    dsimp only
    refine ⟨?_, ?_, hc.2.1, hc.2.2.1, hc.2.2.2⟩
    · intro a ha
      cases chain with
      | nil => simp at ha
      | cons b tl =>
        have hba : b = a := by simpa using ha
        rw [← hba]
        exact hchain b (List.mem_cons_self _ _)
    · intro i b hb
      unfold updT at hb
      by_cases hi : i = GetIndex memorySize
      · rw [if_pos hi] at hb
        cases chain with
        | nil =>
          simp only [spliceFetched] at hb
          rw [hbc (GetIndex memorySize)] at hb
          exact hts _ b hb
        | cons b0 tl =>
          simp only [spliceFetched] at hb
          rcases List.mem_append.mp hb with h' | h'
          · exact hchain b (List.mem_cons_of_mem _ (List.take_subset _ _ h'))
          · rw [hbc (GetIndex memorySize)] at h'
            exact hts _ b h'
      · rw [if_neg hi] at hb
        rw [hbc i] at hb
        exact hts i b hb

/-- C8: every address handed back by a successful Allocate is a multiple of
the platform pointer size (8): cached requests are rounded to 8-aligned size
classes and carved at aligned offsets from aligned runs, large requests
return the system heap's aligned address, and the alignment of every free
list and PageCache index is preserved by the call. -/
theorem allocate_returns_aligned (n : Nat) (ts : ThreadState) (cs : CentralState)
    (pst : PageCacheState) (sys : Sys)
    (hts : AlignedTs ts) (hcs : AlignedCs cs) (hpst : AlignedPst pst)
    (hsys : AlignedSys sys) :
    (∀ a, (ThreadAllocate n ts cs pst sys).res = some a → a % 8 = 0) ∧
    AlignedTs (ThreadAllocate n ts cs pst sys).ts ∧
    AlignedCs (ThreadAllocate n ts cs pst sys).cs ∧
    AlignedPst (ThreadAllocate n ts cs pst sys).pst := by
  unfold ThreadAllocate
  by_cases hn : n = 0
  · rw [if_pos hn]
    exact ⟨fun a ha => Option.noConfusion ha, hts, hcs, hpst⟩
  rw [if_neg hn]
  dsimp only
  by_cases hbig : MAX_CACHED_UNIT_SIZE < GetSizeClass n
  · rw [if_pos hbig]
    have hf := fetch_aligned (GetSizeClass n) ts cs pst sys
      (fun hle => absurd hle (Nat.not_le.mpr hbig)) hts hcs hpst.1 hpst.2 hsys.1 hsys.2
    exact ⟨hf.1, hf.2.1, hf.2.2.1, hf.2.2.2.1, hf.2.2.2.2⟩
  · rw [if_neg hbig]
    have hm8 : GetSizeClass n % 8 = 0 := getSizeClass_mod8 n (by omega)
    cases hfl : (ts (GetIndex (GetSizeClass n))).freeList with
    | cons b rest =>
      dsimp only
      refine ⟨?_, ?_, hcs, hpst⟩
      · intro a ha
        have hba : b = a := by simpa using ha
        rw [← hba]
        exact hts _ b (by rw [hfl]; exact List.mem_cons_self _ _)
      · intro i b' hb'
        unfold updT at hb'
        by_cases hi : i = GetIndex (GetSizeClass n)
        · rw [if_pos hi] at hb'
          exact hts _ b' (by rw [hfl]; exact List.mem_cons_of_mem _ hb')
        · rw [if_neg hi] at hb'
          exact hts i b' hb'
    | nil =>
      dsimp only
      have hf := fetch_aligned (GetSizeClass n) ts cs pst sys (fun _ => hm8)
        hts hcs hpst.1 hpst.2 hsys.1 hsys.2
      exact ⟨hf.1, hf.2.1, hf.2.2.1, hf.2.2.2.1, hf.2.2.2.2⟩

/-- Witness for C8 at a concrete input: a fresh allocator asking for 24 bytes
from an OS whose mmap answers are page-aligned; every hypothesis is
discharged concretely and a returned address must be 8-aligned. -/
theorem allocate_returns_aligned_witness :
    AlignedTs threadState0 ∧ AlignedSys sysAlways ∧
    (∀ a, (ThreadAllocate 24 threadState0 centralState0 pageCacheState0 sysAlways).res
      = some a → a % 8 = 0) := by
  refine ⟨?_, ?_, ?_⟩
  · intro i b hb
    exact absurd hb (List.not_mem_nil b)
  · constructor
    · intro i a ha
      have : (4096 : Nat) = a := by simpa [sysAlways] using ha
      omega
    · intro i a ha
      simp [sysAlways] at ha
  · exact (allocate_returns_aligned 24 threadState0 centralState0 pageCacheState0
      sysAlways (fun i b hb => absurd hb (List.not_mem_nil b))
      (fun i b hb => absurd hb (List.not_mem_nil b))
      ⟨fun p hp => absurd hp (List.not_mem_nil p),
       fun p hp => absurd hp (List.not_mem_nil p)⟩
      ⟨fun i a ha => by
        have : (4096 : Nat) = a := by simpa [sysAlways] using ha
        omega,
       fun i a ha => by simp [sysAlways] at ha⟩).1

end MemPool
